import Mathlib

/-!
Verification development for the LLL-in-finance core: exact-rational
Gram-Schmidt data, the δ-LLL reduction loop with unimodular transform
accumulation, the lattice embedding of a real feature matrix, and the
sparse-combination decoder.  The reduction core is modelled from the
specification (the repository calls an external reduction routine), with
the embedding's rounding following the notebook's `np.round` semantics.
-/

namespace LLLFin

open Finset

/-- Addition on `ℚ` through `Rat.divInt`, which normalizes; written this way
(rather than through the standard instances) so that it evaluates inside the
kernel. -/
def qadd (x y : ℚ) : ℚ :=
  Rat.divInt (x.num * (y.den : ℤ) + y.num * (x.den : ℤ)) ((x.den : ℤ) * (y.den : ℤ))

/-- Subtraction on `ℚ` through `Rat.divInt`; evaluates inside the kernel. -/
def qsub (x y : ℚ) : ℚ :=
  Rat.divInt (x.num * (y.den : ℤ) - y.num * (x.den : ℤ)) ((x.den : ℤ) * (y.den : ℤ))

/-- Multiplication on `ℚ` through `Rat.divInt`; evaluates inside the kernel. -/
def qmul (x y : ℚ) : ℚ := Rat.divInt (x.num * y.num) ((x.den : ℤ) * (y.den : ℤ))

/-- Division on `ℚ` through `Rat.divInt` (total, with `x/0 = 0`); evaluates
inside the kernel. -/
def qdiv (x y : ℚ) : ℚ := Rat.divInt (x.num * (y.den : ℤ)) ((x.den : ℤ) * y.num)

theorem qadd_eq (x y : ℚ) : qadd x y = x + y := by
  have hx : ((x.den : ℤ) : ℚ) ≠ 0 := by exact_mod_cast x.den_ne_zero
  have hy : ((y.den : ℤ) : ℚ) ≠ 0 := by exact_mod_cast y.den_ne_zero
  rw [qadd, Rat.divInt_eq_div]
  push_cast
  conv_rhs => rw [← Rat.num_div_den x, ← Rat.num_div_den y]
  field_simp

theorem qsub_eq (x y : ℚ) : qsub x y = x - y := by
  have hx : ((x.den : ℤ) : ℚ) ≠ 0 := by exact_mod_cast x.den_ne_zero
  have hy : ((y.den : ℤ) : ℚ) ≠ 0 := by exact_mod_cast y.den_ne_zero
  rw [qsub, Rat.divInt_eq_div]
  push_cast
  conv_rhs => rw [← Rat.num_div_den x, ← Rat.num_div_den y]
  field_simp
  ring

theorem qmul_eq (x y : ℚ) : qmul x y = x * y := by
  have hx : ((x.den : ℤ) : ℚ) ≠ 0 := by exact_mod_cast x.den_ne_zero
  have hy : ((y.den : ℤ) : ℚ) ≠ 0 := by exact_mod_cast y.den_ne_zero
  rw [qmul, Rat.divInt_eq_div]
  push_cast
  conv_rhs => rw [← Rat.num_div_den x, ← Rat.num_div_den y]
  field_simp

theorem qdiv_eq (x y : ℚ) : qdiv x y = x / y := by
  by_cases hy0 : y = 0
  · subst hy0
    rw [qdiv]
    simp
  · have hx : ((x.den : ℤ) : ℚ) ≠ 0 := by exact_mod_cast x.den_ne_zero
    have hyd : ((y.den : ℤ) : ℚ) ≠ 0 := by exact_mod_cast y.den_ne_zero
    have hyn : (y.num : ℚ) ≠ 0 := by
      exact_mod_cast Rat.num_ne_zero.mpr hy0
    rw [qdiv, Rat.divInt_eq_div]
    push_cast
    conv_rhs => rw [← Rat.num_div_den x, ← Rat.num_div_den y]
    rw [div_div_div_eq]

/-- Absolute value on `ℚ`; evaluates inside the kernel. -/
def qabs (x : ℚ) : ℚ := if x < 0 then -x else x

theorem qabs_eq (x : ℚ) : qabs x = |x| := by
  rw [qabs]
  by_cases h : x < 0
  · rw [if_pos h, abs_of_neg h]
  · rw [if_neg h, abs_of_nonneg (le_of_not_lt h)]

/-- Round-to-nearest on `ℚ` (ties upward, as Mathlib's `round`); evaluates
inside the kernel. -/
def qround (x : ℚ) : ℤ := ⌊qadd x (mkRat 1 2)⌋

theorem qround_eq (x : ℚ) : qround x = round x := by
  rw [qround, qadd_eq, round_eq, Rat.mkRat_eq_divInt, Rat.divInt_eq_div]
  norm_num

/-- Kernel-reducible sum of a list of rationals. -/
def qsum (l : List ℚ) : ℚ := l.foldr qadd 0

theorem qsum_eq (l : List ℚ) : qsum l = l.sum := by
  induction l with
  | nil => rfl
  | cons a l ih =>
    rw [qsum, List.foldr_cons, List.sum_cons]
    show qadd a (qsum l) = _
    rw [qadd_eq, ih]

theorem list_range_sum (m : ℕ) (f : ℕ → ℚ) :
    ((List.range m).map f).sum = ∑ j ∈ Finset.range m, f j := by
  induction m with
  | zero => simp
  | succ m ih =>
    rw [List.range_succ, List.map_append, List.sum_append, Finset.sum_range_succ, ih]
    simp

theorem fin_range_sum {n : ℕ} (f : Fin n → ℚ) :
    ((List.finRange n).map f).sum = ∑ i, f i := by
  rw [Finset.sum]
  rfl

/-- Dot product of two rational vectors indexed by `Fin n`; defined through
the kernel-reducible rational operations. -/
def dot {n : ℕ} (x y : Fin n → ℚ) : ℚ :=
  qsum ((List.finRange n).map fun i => qmul (x i) (y i))

theorem dot_eq_sum {n : ℕ} (x y : Fin n → ℚ) : dot x y = ∑ i, x i * y i := by
  rw [dot, qsum_eq]
  have h : (fun i => qmul (x i) (y i)) = fun i => x i * y i :=
    funext fun i => qmul_eq _ _
  rw [h, fin_range_sum]

theorem dot_comm {n : ℕ} (x y : Fin n → ℚ) : dot x y = dot y x := by
  simp only [dot_eq_sum]
  exact Finset.sum_congr rfl (fun i _ => mul_comm _ _)

theorem dot_zero_left {n : ℕ} (y : Fin n → ℚ) : dot 0 y = 0 := by
  simp only [dot_eq_sum]
  simp

theorem dot_sub_left {n : ℕ} (x x' y : Fin n → ℚ) :
    dot (x - x') y = dot x y - dot x' y := by
  simp only [dot_eq_sum]
  rw [← Finset.sum_sub_distrib]
  exact Finset.sum_congr rfl (fun i _ => by simp [sub_mul])

theorem dot_add_left {n : ℕ} (x x' y : Fin n → ℚ) :
    dot (x + x') y = dot x y + dot x' y := by
  simp only [dot_eq_sum]
  rw [← Finset.sum_add_distrib]
  exact Finset.sum_congr rfl (fun i _ => by simp [add_mul])

theorem dot_smul_left {n : ℕ} (c : ℚ) (x y : Fin n → ℚ) :
    dot (c • x) y = c * dot x y := by
  simp only [dot_eq_sum]
  rw [Finset.mul_sum]
  exact Finset.sum_congr rfl (fun i _ => by simp [mul_assoc])

theorem dot_sum_left {n : ℕ} (s : Finset ℕ) (f : ℕ → Fin n → ℚ) (y : Fin n → ℚ) :
    dot (∑ j ∈ s, f j) y = ∑ j ∈ s, dot (f j) y := by
  classical
  induction s using Finset.induction_on with
  | empty => simp [dot_zero_left]
  | insert hx ih =>
    rw [Finset.sum_insert hx, Finset.sum_insert hx, dot_add_left, ih]

theorem dot_self_nonneg {n : ℕ} (x : Fin n → ℚ) : 0 ≤ dot x x := by
  simp only [dot_eq_sum]
  exact Finset.sum_nonneg (fun i _ => mul_self_nonneg _)

theorem eq_zero_of_dot_self_eq_zero {n : ℕ} {x : Fin n → ℚ}
    (h : dot x x = 0) : x = 0 := by
  rw [dot_eq_sum] at h
  funext i
  have h0 : ∀ j ∈ (Finset.univ : Finset (Fin n)), 0 ≤ x j * x j :=
    fun j _ => mul_self_nonneg _
  have := (Finset.sum_eq_zero_iff_of_nonneg h0).mp h i (Finset.mem_univ i)
  simpa [mul_self_eq_zero] using this

theorem dot_zero_right {n : ℕ} (x : Fin n → ℚ) : dot x 0 = 0 := by
  rw [dot_comm]
  exact dot_zero_left x

/-- Row `i` of a square matrix, with out-of-range indices giving the zero
vector; this lets the reduction cursor range over plain naturals. -/
def rowN {n : ℕ} {R : Type} [Zero R] (M : Matrix (Fin n) (Fin n) R) (i : ℕ) :
    Fin n → R :=
  if h : i < n then M ⟨i, h⟩ else 0

/-- Cumulative Gram-Schmidt helper: `gsoAux b m i` is the `i`-th orthogonalized
vector of the rows of `b`, provided `i < m`; defined by structural recursion on
`m` so that it evaluates inside the kernel. -/
def gsoAux {n : ℕ} (b : Matrix (Fin n) (Fin n) ℚ) : ℕ → ℕ → Fin n → ℚ
  | 0, _, _ => 0
  | m + 1, i, c =>
    if i = m then
      qsub (rowN b m c)
        (qsum ((List.range m).map fun j =>
          qmul (qdiv (dot (rowN b m) (gsoAux b m j))
              (dot (gsoAux b m j) (gsoAux b m j)))
            (gsoAux b m j c)))
    else gsoAux b m i c

/-- The `i`-th Gram-Schmidt orthogonalized vector of the rows of `b`. -/
def gso {n : ℕ} (b : Matrix (Fin n) (Fin n) ℚ) (i : ℕ) : Fin n → ℚ :=
  fun c => gsoAux b (i + 1) i c

/-- Squared norm `B_i` of the `i`-th orthogonalized vector. -/
def Bnorm {n : ℕ} (b : Matrix (Fin n) (Fin n) ℚ) (i : ℕ) : ℚ :=
  dot (gso b i) (gso b i)

/-- Gram coefficient `μ_{i,j}` of the rows of `b` (zero when `B_j = 0`,
following the total-division convention of the rationals). -/
def mu {n : ℕ} (b : Matrix (Fin n) (Fin n) ℚ) (i j : ℕ) : ℚ :=
  qdiv (dot (rowN b i) (gso b j)) (Bnorm b j)

theorem mu_eq_div {n : ℕ} (b : Matrix (Fin n) (Fin n) ℚ) (i j : ℕ) :
    mu b i j = dot (rowN b i) (gso b j) / Bnorm b j := by
  rw [mu, qdiv_eq]

theorem gsoAux_succ_ne {n : ℕ} (b : Matrix (Fin n) (Fin n) ℚ) (m i : ℕ)
    (h : i ≠ m) : gsoAux b (m + 1) i = gsoAux b m i := by
  funext c
  simp [gsoAux, h]

theorem gsoAux_stable {n : ℕ} (b : Matrix (Fin n) (Fin n) ℚ) :
    ∀ m' m i : ℕ, i < m → m ≤ m' → gsoAux b m' i = gsoAux b m i := by
  intro m'
  induction m' with
  | zero =>
    intro m i hi hm
    omega
  | succ m' ih =>
    intro m i hi hm
    rcases eq_or_lt_of_le hm with h | h
    · rw [h]
    · have hm' : m ≤ m' := by omega
      have hne : i ≠ m' := by omega
      rw [gsoAux_succ_ne b m' i hne, ih m i hi hm']

theorem gso_eq_gsoAux {n : ℕ} (b : Matrix (Fin n) (Fin n) ℚ) {m i : ℕ}
    (h : i < m) : gso b i = gsoAux b m i := by
  funext c
  have := gsoAux_stable b m (i + 1) i (Nat.lt_succ_self i) h
  rw [gso]
  rw [this]

theorem gso_spec {n : ℕ} (b : Matrix (Fin n) (Fin n) ℚ) (i : ℕ) :
    gso b i = rowN b i - ∑ j ∈ Finset.range i, mu b i j • gso b j := by
  funext c
  have hunf : gso b i c = gsoAux b (i + 1) i c := rfl
  rw [hunf]
  show (if i = i then
      qsub (rowN b i c)
        (qsum ((List.range i).map fun j =>
          qmul (qdiv (dot (rowN b i) (gsoAux b i j))
              (dot (gsoAux b i j) (gsoAux b i j)))
            (gsoAux b i j c)))
    else gsoAux b i i c) = _
  rw [if_pos rfl, qsub_eq, qsum_eq, list_range_sum]
  have hstep : ∀ j ∈ Finset.range i,
      qmul (qdiv (dot (rowN b i) (gsoAux b i j))
          (dot (gsoAux b i j) (gsoAux b i j)))
        (gsoAux b i j c) = mu b i j * gso b j c := by
    intro j hj
    have hj' : j < i := Finset.mem_range.mp hj
    rw [← gso_eq_gsoAux b hj', qmul_eq, qdiv_eq, mu_eq_div]
    rfl
  rw [Finset.sum_congr rfl hstep]
  simp [Pi.sub_apply, Finset.sum_apply, Pi.smul_apply, smul_eq_mul]

theorem rowN_of_ge {n : ℕ} {R : Type} [Zero R] (M : Matrix (Fin n) (Fin n) R)
    {i : ℕ} (h : n ≤ i) : rowN M i = 0 := by
  rw [rowN, dif_neg (by omega)]

theorem mu_of_ge_left {n : ℕ} (b : Matrix (Fin n) (Fin n) ℚ) {i : ℕ} (j : ℕ)
    (h : n ≤ i) : mu b i j = 0 := by
  rw [mu_eq_div, rowN_of_ge b h, dot_zero_left, zero_div]

theorem gso_of_ge {n : ℕ} (b : Matrix (Fin n) (Fin n) ℚ) {i : ℕ}
    (h : n ≤ i) : gso b i = 0 := by
  rw [gso_spec, rowN_of_ge b h]
  have : ∀ j ∈ Finset.range i, mu b i j • gso b j = 0 := by
    intro j hj
    rw [mu_of_ge_left b j h, zero_smul]
  rw [Finset.sum_congr rfl this]
  simp

theorem Bnorm_of_ge {n : ℕ} (b : Matrix (Fin n) (Fin n) ℚ) {i : ℕ}
    (h : n ≤ i) : Bnorm b i = 0 := by
  rw [Bnorm, gso_of_ge b h, dot_zero_left]

theorem mu_mul_Bnorm {n : ℕ} (b : Matrix (Fin n) (Fin n) ℚ) (i j : ℕ) :
    mu b i j * Bnorm b j = dot (rowN b i) (gso b j) := by
  by_cases h : Bnorm b j = 0
  · have hz : gso b j = 0 := eq_zero_of_dot_self_eq_zero h
    rw [h, mul_zero, hz, dot_zero_right]
  · rw [mu_eq_div, div_mul_cancel₀ _ h]

theorem dot_gso_gso_of_lt {n : ℕ} (b : Matrix (Fin n) (Fin n) ℚ) :
    ∀ i j : ℕ, j < i → dot (gso b i) (gso b j) = 0 := by
  intro i
  induction i using Nat.strong_induction_on with
  | _ i ih =>
    intro j hj
    rw [gso_spec b i, dot_sub_left, dot_sum_left]
    have hterm : ∀ t ∈ Finset.range i,
        dot (mu b i t • gso b t) (gso b j) = mu b i t * dot (gso b t) (gso b j) :=
      fun t _ => dot_smul_left _ _ _
    rw [Finset.sum_congr rfl hterm]
    have hsingle : ∑ t ∈ Finset.range i, mu b i t * dot (gso b t) (gso b j)
        = mu b i j * dot (gso b j) (gso b j) := by
      apply Finset.sum_eq_single_of_mem j (Finset.mem_range.mpr hj)
      intro t ht htne
      have ht' : t < i := Finset.mem_range.mp ht
      rcases lt_or_gt_of_ne htne with hlt | hgt
      · have := ih j hj t hlt
        rw [dot_comm] at this
        rw [this, mul_zero]
      · rw [ih t ht' j hgt, mul_zero]
    rw [hsingle]
    have : mu b i j * dot (gso b j) (gso b j) = mu b i j * Bnorm b j := rfl
    rw [this, mu_mul_Bnorm, sub_self]

theorem dot_gso_gso {n : ℕ} (b : Matrix (Fin n) (Fin n) ℚ) {i j : ℕ}
    (h : i ≠ j) : dot (gso b i) (gso b j) = 0 := by
  rcases lt_or_gt_of_ne h with hlt | hgt
  · rw [dot_comm]
    exact dot_gso_gso_of_lt b j i hlt
  · exact dot_gso_gso_of_lt b i j hgt

theorem rowN_eq_gso_add_sum {n : ℕ} (b : Matrix (Fin n) (Fin n) ℚ) (i : ℕ) :
    rowN b i = gso b i + ∑ j ∈ Finset.range i, mu b i j • gso b j := by
  rw [gso_spec b i]
  abel

theorem dot_row_gso_of_lt {n : ℕ} (b : Matrix (Fin n) (Fin n) ℚ) {j l : ℕ}
    (h : j < l) : dot (rowN b j) (gso b l) = 0 := by
  rw [rowN_eq_gso_add_sum b j, dot_add_left, dot_sum_left]
  rw [dot_gso_gso b (by omega : j ≠ l)]
  have hterm : ∀ t ∈ Finset.range j, dot (mu b j t • gso b t) (gso b l) = 0 := by
    intro t ht
    have ht' : t < j := Finset.mem_range.mp ht
    rw [dot_smul_left, dot_gso_gso b (by omega : t ≠ l), mul_zero]
  rw [Finset.sum_congr rfl hterm]
  simp

theorem dot_row_gso_self {n : ℕ} (b : Matrix (Fin n) (Fin n) ℚ) (j : ℕ) :
    dot (rowN b j) (gso b j) = Bnorm b j := by
  rw [rowN_eq_gso_add_sum b j, dot_add_left, dot_sum_left]
  have hterm : ∀ t ∈ Finset.range j, dot (mu b j t • gso b t) (gso b j) = 0 := by
    intro t ht
    have ht' : t < j := Finset.mem_range.mp ht
    rw [dot_smul_left, dot_gso_gso b (by omega : t ≠ j), mul_zero]
  rw [Finset.sum_congr rfl hterm]
  simp [Bnorm]

theorem mu_self_of_ne {n : ℕ} (b : Matrix (Fin n) (Fin n) ℚ) {j : ℕ}
    (h : Bnorm b j ≠ 0) : mu b j j = 1 := by
  rw [mu_eq_div, dot_row_gso_self, div_self h]

theorem mu_zero_of_lt {n : ℕ} (b : Matrix (Fin n) (Fin n) ℚ) {i j : ℕ}
    (h : i < j) : mu b i j = 0 := by
  rw [mu_eq_div, dot_row_gso_of_lt b h, zero_div]

theorem gso_congr {n : ℕ} (b b' : Matrix (Fin n) (Fin n) ℚ) :
    ∀ i : ℕ, (∀ l, l ≤ i → rowN b l = rowN b' l) → gso b i = gso b' i := by
  intro i
  induction i using Nat.strong_induction_on with
  | _ i ih =>
    intro h
    rw [gso_spec b i, gso_spec b' i, h i le_rfl]
    have hterm : ∀ j ∈ Finset.range i, mu b i j • gso b j = mu b' i j • gso b' j := by
      intro j hj
      have hj' : j < i := Finset.mem_range.mp hj
      have hg : gso b j = gso b' j := ih j hj' (fun l hl => h l (by omega))
      have hmu : mu b i j = mu b' i j := by
        rw [mu, mu, hg, h i le_rfl]
        have : Bnorm b j = Bnorm b' j := by
          rw [Bnorm, Bnorm, hg]
        rw [this]
      rw [hg, hmu]
    rw [Finset.sum_congr rfl hterm]

theorem Bnorm_congr {n : ℕ} (b b' : Matrix (Fin n) (Fin n) ℚ) (i : ℕ)
    (h : ∀ l, l ≤ i → rowN b l = rowN b' l) : Bnorm b i = Bnorm b' i := by
  rw [Bnorm, Bnorm, gso_congr b b' i h]

theorem mu_congr {n : ℕ} (b b' : Matrix (Fin n) (Fin n) ℚ) (i j : ℕ)
    (hij : j ≤ i) (h : ∀ l, l ≤ i → rowN b l = rowN b' l) :
    mu b i j = mu b' i j := by
  rw [mu_eq_div, mu_eq_div, gso_congr b b' j (fun l hl => h l (by omega)),
    h i le_rfl, Bnorm_congr b b' j (fun l hl => h l (by omega))]

/-- Elementary row combination `row_k ← row_k − q·row_j`, applied to both the
basis and the transform during reduction. -/
def rcomb {n : ℕ} {R : Type} [Ring R] (M : Matrix (Fin n) (Fin n) R)
    (k j : ℕ) (q : R) : Matrix (Fin n) (Fin n) R :=
  Matrix.of fun i c => if (i : ℕ) = k then M i c - q * rowN M j c else M i c

/-- Elementary row swap of rows `a` and `b₂`, applied to both the basis and
the transform during reduction. -/
def rswap {n : ℕ} {R : Type} [Ring R] (M : Matrix (Fin n) (Fin n) R)
    (a b₂ : ℕ) : Matrix (Fin n) (Fin n) R :=
  Matrix.of fun i c =>
    if (i : ℕ) = a then rowN M b₂ c
    else if (i : ℕ) = b₂ then rowN M a c
    else M i c

/-- The rational image of an integer matrix; Gram-Schmidt data of an integer
basis is computed on this image. -/
def ratM {n : ℕ} (M : Matrix (Fin n) (Fin n) ℤ) : Matrix (Fin n) (Fin n) ℚ :=
  Matrix.of fun i c => ((M i c : ℤ) : ℚ)

theorem rowN_ratM {n : ℕ} (M : Matrix (Fin n) (Fin n) ℤ) (i : ℕ) (c : Fin n) :
    rowN (ratM M) i c = ((rowN M i c : ℤ) : ℚ) := by
  by_cases h : i < n
  · rw [rowN, rowN, dif_pos h, dif_pos h]
    rfl
  · rw [rowN, rowN, dif_neg h, dif_neg h]
    simp

theorem ratM_rcomb {n : ℕ} (M : Matrix (Fin n) (Fin n) ℤ) (k j : ℕ) (q : ℤ) :
    ratM (rcomb M k j q) = rcomb (ratM M) k j (q : ℚ) := by
  funext i c
  show ((rcomb M k j q i c : ℤ) : ℚ) = _
  rw [rcomb, rcomb]
  by_cases h : (i : ℕ) = k
  · simp only [Matrix.of_apply, h, if_pos rfl, rowN_ratM]
    push_cast
    rfl
  · simp only [Matrix.of_apply, h, if_false]
    rfl

theorem ratM_rswap {n : ℕ} (M : Matrix (Fin n) (Fin n) ℤ) (a b₂ : ℕ) :
    ratM (rswap M a b₂) = rswap (ratM M) a b₂ := by
  funext i c
  show ((rswap M a b₂ i c : ℤ) : ℚ) = _
  rw [rswap, rswap]
  show ((if (i : ℕ) = a then rowN M b₂ c
      else if (i : ℕ) = b₂ then rowN M a c else M i c : ℤ) : ℚ) = _
  by_cases h : (i : ℕ) = a
  · rw [if_pos h]
    show _ = (if (i : ℕ) = a then rowN (ratM M) b₂ c
      else if (i : ℕ) = b₂ then rowN (ratM M) a c else ratM M i c)
    rw [if_pos h, rowN_ratM]
  · rw [if_neg h]
    show _ = (if (i : ℕ) = a then rowN (ratM M) b₂ c
      else if (i : ℕ) = b₂ then rowN (ratM M) a c else ratM M i c)
    rw [if_neg h]
    by_cases h2 : (i : ℕ) = b₂
    · rw [if_pos h2, if_pos h2, rowN_ratM]
    · rw [if_neg h2, if_neg h2]
      rfl

theorem rowN_rcomb_self {n : ℕ} {R : Type} [Ring R]
    (M : Matrix (Fin n) (Fin n) R) {k : ℕ} (j : ℕ) (q : R) (hk : k < n) :
    rowN (rcomb M k j q) k = rowN M k - q • rowN M j := by
  funext c
  rw [rowN, rowN, dif_pos hk, dif_pos hk]
  show rcomb M k j q ⟨k, hk⟩ c = _
  rw [rcomb]
  simp only [Matrix.of_apply, if_pos rfl]
  simp [smul_eq_mul]

theorem rowN_rcomb_ne {n : ℕ} {R : Type} [Ring R]
    (M : Matrix (Fin n) (Fin n) R) {k l : ℕ} (j : ℕ) (q : R) (hl : l ≠ k) :
    rowN (rcomb M k j q) l = rowN M l := by
  funext c
  by_cases h : l < n
  · rw [rowN, rowN, dif_pos h, dif_pos h]
    show rcomb M k j q ⟨l, h⟩ c = _
    rw [rcomb]
    simp only [Matrix.of_apply]
    rw [if_neg hl]
  · rw [rowN, rowN, dif_neg h, dif_neg h]

theorem rowN_rswap_left {n : ℕ} {R : Type} [Ring R]
    (M : Matrix (Fin n) (Fin n) R) {a : ℕ} (b₂ : ℕ) (ha : a < n) :
    rowN (rswap M a b₂) a = rowN M b₂ := by
  funext c
  rw [rowN, dif_pos ha]
  show rswap M a b₂ ⟨a, ha⟩ c = _
  rw [rswap]
  show (if ((⟨a, ha⟩ : Fin n) : ℕ) = a then rowN M b₂ c
    else if ((⟨a, ha⟩ : Fin n) : ℕ) = b₂ then rowN M a c else M ⟨a, ha⟩ c) = _
  rw [if_pos rfl]

theorem rowN_rswap_right {n : ℕ} {R : Type} [Ring R]
    (M : Matrix (Fin n) (Fin n) R) {a b₂ : ℕ} (hb : b₂ < n) (hab : b₂ ≠ a) :
    rowN (rswap M a b₂) b₂ = rowN M a := by
  funext c
  rw [rowN, dif_pos hb]
  show rswap M a b₂ ⟨b₂, hb⟩ c = _
  rw [rswap]
  show (if ((⟨b₂, hb⟩ : Fin n) : ℕ) = a then rowN M b₂ c
    else if ((⟨b₂, hb⟩ : Fin n) : ℕ) = b₂ then rowN M a c else M ⟨b₂, hb⟩ c) = _
  rw [if_neg hab, if_pos rfl]

theorem rowN_rswap_ne {n : ℕ} {R : Type} [Ring R]
    (M : Matrix (Fin n) (Fin n) R) {a b₂ l : ℕ} (hla : l ≠ a) (hlb : l ≠ b₂) :
    rowN (rswap M a b₂) l = rowN M l := by
  funext c
  by_cases h : l < n
  · rw [rowN, rowN, dif_pos h, dif_pos h]
    show rswap M a b₂ ⟨l, h⟩ c = _
    rw [rswap]
    simp only [Matrix.of_apply]
    rw [if_neg hla, if_neg hlb]
  · rw [rowN, rowN, dif_neg h, dif_neg h]

theorem rcomb_of_ge {n : ℕ} {R : Type} [Ring R]
    (M : Matrix (Fin n) (Fin n) R) {k : ℕ} (j : ℕ) (q : R) (hk : n ≤ k) :
    rcomb M k j q = M := by
  funext i c
  show (if (i : ℕ) = k then M i c - q * rowN M j c else M i c) = M i c
  rw [if_neg (by omega : (i : ℕ) ≠ k)]

theorem mu_self_smul {n : ℕ} (b : Matrix (Fin n) (Fin n) ℚ) (j : ℕ) :
    mu b j j • gso b j = gso b j := by
  by_cases h : Bnorm b j = 0
  · have hz : gso b j = 0 := eq_zero_of_dot_self_eq_zero h
    rw [hz, smul_zero]
  · rw [mu_self_of_ne b h, one_smul]

/-- The residual of row `j` against the first `k` orthogonalized vectors is
zero as soon as `j < k`. -/
theorem row_residual_eq_zero {n : ℕ} (b : Matrix (Fin n) (Fin n) ℚ)
    {j k : ℕ} (hjk : j < k) :
    rowN b j - ∑ l ∈ Finset.range k, mu b j l • gso b l = 0 := by
  have hsub : Finset.range (j + 1) ⊆ Finset.range k := by
    intro x hx
    rw [Finset.mem_range] at hx ⊢
    omega
  have hvanish : ∀ l ∈ Finset.range k, l ∉ Finset.range (j + 1) →
      mu b j l • gso b l = 0 := by
    intro l _ hl
    rw [Finset.mem_range] at hl
    rw [mu_zero_of_lt b (by omega : j < l), zero_smul]
  rw [← Finset.sum_subset hsub hvanish, Finset.sum_range_succ, mu_self_smul,
    gso_spec b j]
  abel

/-- A row combination with an earlier row leaves every orthogonalized vector
unchanged. -/
theorem gso_rcomb {n : ℕ} (b : Matrix (Fin n) (Fin n) ℚ) {k j : ℕ} (c : ℚ)
    (hjk : j < k) : ∀ i : ℕ, gso (rcomb b k j c) i = gso b i := by
  intro i
  induction i using Nat.strong_induction_on with
  | _ i ih =>
    by_cases hk : k < n
    · by_cases hik : i = k
      · subst hik
        rw [gso_spec (rcomb b i j c) i, rowN_rcomb_self b j c hk]
        have hterm : ∀ l ∈ Finset.range i,
            mu (rcomb b i j c) i l • gso (rcomb b i j c) l
              = (mu b i l - c * mu b j l) • gso b l := by
          intro l hl
          have hl' : l < i := Finset.mem_range.mp hl
          have hg : gso (rcomb b i j c) l = gso b l := ih l hl'
          have hB : Bnorm (rcomb b i j c) l = Bnorm b l := by
            rw [Bnorm, Bnorm, hg]
          have hmu : mu (rcomb b i j c) i l = mu b i l - c * mu b j l := by
            simp only [mu_eq_div]
            rw [hg, hB, rowN_rcomb_self b j c hk, dot_sub_left,
              dot_smul_left, sub_div, mul_div_assoc]
          rw [hmu, hg]
        rw [Finset.sum_congr rfl hterm]
        have hsplit : ∑ l ∈ Finset.range i, (mu b i l - c * mu b j l) • gso b l
            = (∑ l ∈ Finset.range i, mu b i l • gso b l)
              - c • (∑ l ∈ Finset.range i, mu b j l • gso b l) := by
          rw [Finset.smul_sum, ← Finset.sum_sub_distrib]
          refine Finset.sum_congr rfl (fun l _ => ?_)
          rw [sub_smul, smul_smul]
        rw [hsplit]
        have hres := row_residual_eq_zero b hjk
        have hrow : rowN b j = ∑ l ∈ Finset.range i, mu b j l • gso b l := by
          have := sub_eq_zero.mp hres
          exact this
        rw [gso_spec b i]
        rw [← hrow]
        funext x
        simp only [Pi.sub_apply, Pi.smul_apply, smul_eq_mul]
        ring
      · rw [gso_spec (rcomb b k j c) i, gso_spec b i,
          rowN_rcomb_ne b j c hik]
        have hterm : ∀ l ∈ Finset.range i,
            mu (rcomb b k j c) i l • gso (rcomb b k j c) l
              = mu b i l • gso b l := by
          intro l hl
          have hl' : l < i := Finset.mem_range.mp hl
          have hg : gso (rcomb b k j c) l = gso b l := ih l hl'
          have hB : Bnorm (rcomb b k j c) l = Bnorm b l := by
            rw [Bnorm, Bnorm, hg]
          simp only [mu_eq_div]
          rw [hg, hB, rowN_rcomb_ne b j c hik]
        rw [Finset.sum_congr rfl hterm]
    · rw [rcomb_of_ge b j c (by omega)]

theorem Bnorm_rcomb {n : ℕ} (b : Matrix (Fin n) (Fin n) ℚ) {k j : ℕ} (c : ℚ)
    (hjk : j < k) (i : ℕ) : Bnorm (rcomb b k j c) i = Bnorm b i := by
  rw [Bnorm, Bnorm, gso_rcomb b c hjk i]

/-- Effect of a row combination on the Gram coefficients: row `k` of `μ` is
shifted by `c` times row `j`, all other rows are untouched. -/
theorem mu_rcomb {n : ℕ} (b : Matrix (Fin n) (Fin n) ℚ) {k j : ℕ} (c : ℚ)
    (hjk : j < k) (hk : k < n) (i l : ℕ) :
    mu (rcomb b k j c) i l
      = if i = k then mu b k l - c * mu b j l else mu b i l := by
  by_cases hik : i = k
  · subst hik
    rw [if_pos rfl]
    simp only [mu_eq_div]
    rw [gso_rcomb b c hjk l, Bnorm_rcomb b c hjk l,
      rowN_rcomb_self b j c hk, dot_sub_left, dot_smul_left, sub_div,
      mul_div_assoc]
  · rw [if_neg hik]
    simp only [mu_eq_div]
    rw [gso_rcomb b c hjk l, Bnorm_rcomb b c hjk l,
      rowN_rcomb_ne b j c hik]

instance exceptDecEq {ε α : Type} [DecidableEq ε] [DecidableEq α] :
    DecidableEq (Except ε α) := fun a b => by
  cases a with
  | error e =>
    cases b with
    | error f =>
      exact if h : e = f then isTrue (by rw [h]) else isFalse (by simp [h])
    | ok v => exact isFalse (by simp)
  | ok u =>
    cases b with
    | error f => exact isFalse (by simp)
    | ok v =>
      exact if h : u = v then isTrue (by rw [h]) else isFalse (by simp [h])

/-- Failure modes of the reduction core, modelled from the spec. -/
inductive LLLError where
  | invalidParameter
  | rankDeficient
  | reductionTimeout
deriving DecidableEq, Repr

/-- Failure mode of the embedding layer, modelled from the spec. -/
inductive EmbedError where
  | invalidParameter
  | dimensionError
deriving DecidableEq, Repr

/-- Size-reduction pass over row `k`: walks `j = k−1` down to `0` and, whenever
`|μ_{k,j}| > 1/2`, subtracts `round(μ_{k,j})` times row `j` from row `k` in
both the basis and the transform.  Modelled from the spec: the repository
delegates reduction to an external routine. -/
def sizeRedAux {n : ℕ} (k : ℕ) :
    ℕ → Matrix (Fin n) (Fin n) ℤ → Matrix (Fin n) (Fin n) ℤ →
      Matrix (Fin n) (Fin n) ℤ × Matrix (Fin n) (Fin n) ℤ
  | 0, B, U => (B, U)
  | j + 1, B, U =>
    if mkRat 1 2 < qabs (mu (ratM B) k j) then
      sizeRedAux k j (rcomb B k j (qround (mu (ratM B) k j)))
        (rcomb U k j (qround (mu (ratM B) k j)))
    else sizeRedAux k j B U

/-- Main reduction loop with cursor `k` and an explicit step budget, modelled
from the spec: size-reduce row `k`, test the Lovász condition on the adjacent
pair (with ties counting as satisfied), then either advance the cursor or swap
rows `k−1` and `k` and back off. -/
def lllLoop {n : ℕ} (δ : ℚ) :
    ℕ → Matrix (Fin n) (Fin n) ℤ → Matrix (Fin n) (Fin n) ℤ → ℕ →
      Except LLLError (Matrix (Fin n) (Fin n) ℤ × Matrix (Fin n) (Fin n) ℤ)
  | fuel, B, U, k =>
    if n ≤ k then .ok (B, U)
    else
      match fuel with
      | 0 => .error .reductionTimeout
      | fuel + 1 =>
        let p := sizeRedAux k k B U
        if qmul (qsub δ (qmul (mu (ratM p.1) k (k - 1)) (mu (ratM p.1) k (k - 1))))
            (Bnorm (ratM p.1) (k - 1)) ≤ Bnorm (ratM p.1) k then
          lllLoop δ fuel p.1 p.2 (k + 1)
        else
          lllLoop δ fuel (rswap p.1 (k - 1) k) (rswap p.2 (k - 1) k)
            (max (k - 1) 1)

/-- Entry point of the reduction core, modelled from the spec: validates the
reduction parameter `δ`, rejects bases containing a zero row, then runs the
cursor loop starting from the identity transform. -/
def reduce {n : ℕ} (fuel : ℕ) (B₀ : Matrix (Fin n) (Fin n) ℤ) (δ : ℚ) :
    Except LLLError (Matrix (Fin n) (Fin n) ℤ × Matrix (Fin n) (Fin n) ℤ) :=
  if ¬(mkRat 1 4 < δ ∧ δ < 1) then .error .invalidParameter
  else if ∃ i : Fin n, ∀ c : Fin n, B₀ i c = 0 then .error .rankDeficient
  else lllLoop δ fuel B₀ 1 1

theorem rowN_mul {n : ℕ} (M N : Matrix (Fin n) (Fin n) ℤ) (j : ℕ) (c : Fin n) :
    rowN (M * N) j c = ∑ l, rowN M j l * N l c := by
  by_cases h : j < n
  · rw [rowN, rowN, dif_pos h, dif_pos h, Matrix.mul_apply]
  · rw [rowN, rowN, dif_neg h, dif_neg h]
    simp

theorem rcomb_mul {n : ℕ} (M N : Matrix (Fin n) (Fin n) ℤ) (k j : ℕ) (q : ℤ) :
    rcomb M k j q * N = rcomb (M * N) k j q := by
  funext i c
  rw [Matrix.mul_apply]
  show (∑ l, (if (i : ℕ) = k then M i l - q * rowN M j l else M i l) * N l c)
    = (if (i : ℕ) = k then (M * N) i c - q * rowN (M * N) j c else (M * N) i c)
  by_cases h : (i : ℕ) = k
  · simp only [if_pos h]
    rw [rowN_mul, Matrix.mul_apply, Finset.mul_sum, ← Finset.sum_sub_distrib]
    refine Finset.sum_congr rfl (fun l _ => ?_)
    ring
  · simp only [if_neg h]
    rw [Matrix.mul_apply]

theorem rswap_mul {n : ℕ} (M N : Matrix (Fin n) (Fin n) ℤ) (a b₂ : ℕ) :
    rswap M a b₂ * N = rswap (M * N) a b₂ := by
  funext i c
  rw [Matrix.mul_apply]
  show (∑ l, (if (i : ℕ) = a then rowN M b₂ l
      else if (i : ℕ) = b₂ then rowN M a l else M i l) * N l c)
    = (if (i : ℕ) = a then rowN (M * N) b₂ c
      else if (i : ℕ) = b₂ then rowN (M * N) a c else (M * N) i c)
  by_cases h : (i : ℕ) = a
  · simp only [if_pos h]
    rw [rowN_mul]
  · by_cases h2 : (i : ℕ) = b₂
    · simp only [if_neg h, if_pos h2]
      rw [rowN_mul]
    · simp only [if_neg h, if_neg h2]
      rw [Matrix.mul_apply]

theorem rcomb_eq_transvection_mul {n : ℕ} (M : Matrix (Fin n) (Fin n) ℤ)
    {k j : ℕ} (hk : k < n) (hj : j < n) (q : ℤ) :
    rcomb M k j q = Matrix.transvection ⟨k, hk⟩ ⟨j, hj⟩ (-q) * M := by
  funext a c
  show (if (a : ℕ) = k then M a c - q * rowN M j c else M a c) = _
  by_cases h : (a : ℕ) = k
  · have ha : a = ⟨k, hk⟩ := Fin.ext h
    rw [if_pos h, ha, Matrix.transvection_mul_apply_same, rowN, dif_pos hj]
    ring
  · have ha : a ≠ ⟨k, hk⟩ := fun hh => h (by rw [hh])
    rw [if_neg h, Matrix.transvection_mul_apply_of_ne _ _ _ _ ha]

theorem det_rcomb {n : ℕ} (M : Matrix (Fin n) (Fin n) ℤ) {k j : ℕ}
    (hk : k < n) (hj : j < n) (hkj : k ≠ j) (q : ℤ) :
    (rcomb M k j q).det = M.det := by
  rw [rcomb_eq_transvection_mul M hk hj q, Matrix.det_mul,
    Matrix.det_transvection_of_ne _ _ (Fin.ne_of_val_ne hkj) (-q), one_mul]

theorem rswap_eq_submatrix {n : ℕ} (M : Matrix (Fin n) (Fin n) ℤ)
    {a b₂ : ℕ} (ha : a < n) (hb : b₂ < n) :
    rswap M a b₂ = M.submatrix (Equiv.swap ⟨a, ha⟩ ⟨b₂, hb⟩) id := by
  funext i c
  show (if (i : ℕ) = a then rowN M b₂ c
    else if (i : ℕ) = b₂ then rowN M a c else M i c)
      = M (Equiv.swap ⟨a, ha⟩ ⟨b₂, hb⟩ i) c
  by_cases h : (i : ℕ) = a
  · have hi : i = ⟨a, ha⟩ := Fin.ext h
    rw [if_pos h, hi, Equiv.swap_apply_left, rowN, dif_pos hb]
  · by_cases h2 : (i : ℕ) = b₂
    · have hi : i = ⟨b₂, hb⟩ := Fin.ext h2
      rw [if_neg h, if_pos h2, hi, Equiv.swap_apply_right, rowN, dif_pos ha]
    · have hia : i ≠ ⟨a, ha⟩ := fun hh => h (by rw [hh])
      have hib : i ≠ ⟨b₂, hb⟩ := fun hh => h2 (by rw [hh])
      rw [if_neg h, if_neg h2, Equiv.swap_apply_of_ne_of_ne hia hib]

theorem det_rswap {n : ℕ} (M : Matrix (Fin n) (Fin n) ℤ) {a b₂ : ℕ}
    (ha : a < n) (hb : b₂ < n) (hab : a ≠ b₂) :
    (rswap M a b₂).det = -M.det := by
  rw [rswap_eq_submatrix M ha hb, Matrix.det_permute,
    Equiv.Perm.sign_swap (Fin.ne_of_val_ne hab)]
  simp

/-- The lock-step invariant between the transform and the basis: the current
transform maps the original basis to the current basis. -/
def TransInv {n : ℕ} (B₀ B U : Matrix (Fin n) (Fin n) ℤ) : Prop :=
  U * B₀ = B

/-- Unimodularity of an integer matrix: its determinant is `1` or `-1`,
equivalently `|det| = 1`. -/
def Unimod {n : ℕ} (U : Matrix (Fin n) (Fin n) ℤ) : Prop :=
  U.det = 1 ∨ U.det = -1

theorem transInv_rcomb {n : ℕ} {B₀ B U : Matrix (Fin n) (Fin n) ℤ}
    (k j : ℕ) (q : ℤ) (h : TransInv B₀ B U) :
    TransInv B₀ (rcomb B k j q) (rcomb U k j q) := by
  rw [TransInv] at h ⊢
  rw [rcomb_mul, h]

theorem transInv_rswap {n : ℕ} {B₀ B U : Matrix (Fin n) (Fin n) ℤ}
    (a b₂ : ℕ) (h : TransInv B₀ B U) :
    TransInv B₀ (rswap B a b₂) (rswap U a b₂) := by
  rw [TransInv] at h ⊢
  rw [rswap_mul, h]

theorem unimod_rcomb {n : ℕ} {U : Matrix (Fin n) (Fin n) ℤ} {k j : ℕ}
    (hk : k < n) (hj : j < n) (hkj : k ≠ j) (q : ℤ) (h : Unimod U) :
    Unimod (rcomb U k j q) := by
  rw [Unimod] at h ⊢
  rw [det_rcomb U hk hj hkj q]
  exact h

theorem unimod_rswap {n : ℕ} {U : Matrix (Fin n) (Fin n) ℤ} {a b₂ : ℕ}
    (ha : a < n) (hb : b₂ < n) (hab : a ≠ b₂) (h : Unimod U) :
    Unimod (rswap U a b₂) := by
  rw [Unimod] at h ⊢
  rw [det_rswap U ha hb hab]
  rcases h with h | h
  · right
    rw [h]
  · left
    rw [h]
    norm_num

theorem sizeRedAux_zero {n : ℕ} (k : ℕ) (B U : Matrix (Fin n) (Fin n) ℤ) :
    sizeRedAux k 0 B U = (B, U) := rfl

theorem sizeRedAux_succ {n : ℕ} (k j : ℕ) (B U : Matrix (Fin n) (Fin n) ℤ) :
    sizeRedAux k (j + 1) B U
      = if mkRat 1 2 < qabs (mu (ratM B) k j) then
          sizeRedAux k j (rcomb B k j (qround (mu (ratM B) k j)))
            (rcomb U k j (qround (mu (ratM B) k j)))
        else sizeRedAux k j B U := rfl

theorem sizeRedAux_inv {n : ℕ} (B₀ : Matrix (Fin n) (Fin n) ℤ) {k : ℕ}
    (hk : k < n) :
    ∀ jc (B U : Matrix (Fin n) (Fin n) ℤ), jc ≤ k →
      TransInv B₀ B U ∧ Unimod U →
      TransInv B₀ (sizeRedAux k jc B U).1 (sizeRedAux k jc B U).2
        ∧ Unimod (sizeRedAux k jc B U).2 := by
  intro jc
  induction jc with
  | zero =>
    intro B U hle h
    rw [sizeRedAux_zero]
    exact h
  | succ j ih =>
    intro B U hle h
    rw [sizeRedAux_succ]
    by_cases hcond : mkRat 1 2 < qabs (mu (ratM B) k j)
    · rw [if_pos hcond]
      refine ih _ _ (by omega) ⟨transInv_rcomb k j _ h.1, ?_⟩
      exact unimod_rcomb hk (by omega) (by omega) _ h.2
    · rw [if_neg hcond]
      exact ih _ _ (by omega) h

theorem lllLoop_unfold {n : ℕ} (δ : ℚ) (fuel : ℕ)
    (B U : Matrix (Fin n) (Fin n) ℤ) (k : ℕ) :
    lllLoop δ fuel B U k
      = if n ≤ k then .ok (B, U)
        else match fuel with
          | 0 => .error .reductionTimeout
          | fuel + 1 =>
            if qmul (qsub δ (qmul (mu (ratM (sizeRedAux k k B U).1) k (k - 1))
                  (mu (ratM (sizeRedAux k k B U).1) k (k - 1))))
                (Bnorm (ratM (sizeRedAux k k B U).1) (k - 1))
                ≤ Bnorm (ratM (sizeRedAux k k B U).1) k then
              lllLoop δ fuel (sizeRedAux k k B U).1 (sizeRedAux k k B U).2 (k + 1)
            else
              lllLoop δ fuel (rswap (sizeRedAux k k B U).1 (k - 1) k)
                (rswap (sizeRedAux k k B U).2 (k - 1) k) (max (k - 1) 1) := by
  cases fuel <;> rfl

theorem lllLoop_of_le {n : ℕ} (δ : ℚ) (fuel : ℕ)
    (B U : Matrix (Fin n) (Fin n) ℤ) {k : ℕ} (h : n ≤ k) :
    lllLoop δ fuel B U k = .ok (B, U) := by
  rw [lllLoop_unfold, if_pos h]

theorem lllLoop_zero_of_lt {n : ℕ} (δ : ℚ)
    (B U : Matrix (Fin n) (Fin n) ℤ) {k : ℕ} (h : k < n) :
    lllLoop δ 0 B U k = .error .reductionTimeout := by
  rw [lllLoop_unfold, if_neg (not_le.mpr h)]

theorem lllLoop_succ_of_lt {n : ℕ} (δ : ℚ) (fuel : ℕ)
    (B U : Matrix (Fin n) (Fin n) ℤ) {k : ℕ} (h : k < n) :
    lllLoop δ (fuel + 1) B U k
      = if qmul (qsub δ (qmul (mu (ratM (sizeRedAux k k B U).1) k (k - 1))
            (mu (ratM (sizeRedAux k k B U).1) k (k - 1))))
          (Bnorm (ratM (sizeRedAux k k B U).1) (k - 1))
          ≤ Bnorm (ratM (sizeRedAux k k B U).1) k then
        lllLoop δ fuel (sizeRedAux k k B U).1 (sizeRedAux k k B U).2 (k + 1)
      else
        lllLoop δ fuel (rswap (sizeRedAux k k B U).1 (k - 1) k)
          (rswap (sizeRedAux k k B U).2 (k - 1) k) (max (k - 1) 1) := by
  rw [lllLoop_unfold, if_neg (not_le.mpr h)]

theorem lllLoop_inv {n : ℕ} (δ : ℚ) (B₀ : Matrix (Fin n) (Fin n) ℤ) :
    ∀ (fuel k : ℕ) (B U B' U' : Matrix (Fin n) (Fin n) ℤ), 1 ≤ k →
      lllLoop δ fuel B U k = .ok (B', U') →
      TransInv B₀ B U ∧ Unimod U →
      TransInv B₀ B' U' ∧ Unimod U' := by
  intro fuel
  induction fuel with
  | zero =>
    intro k B U B' U' hk1 hres h
    by_cases hk : n ≤ k
    · have h2 : (B, U) = (B', U') :=
        Except.ok.inj ((lllLoop_of_le δ 0 B U hk).symm.trans hres)
      cases h2
      exact h
    · rw [lllLoop_zero_of_lt δ B U (lt_of_not_le hk)] at hres
      exact absurd hres (by simp)
  | succ f ih =>
    intro k B U B' U' hk1 hres h
    by_cases hk : n ≤ k
    · have h2 : (B, U) = (B', U') :=
        Except.ok.inj ((lllLoop_of_le δ (f + 1) B U hk).symm.trans hres)
      cases h2
      exact h
    · have hkn : k < n := lt_of_not_le hk
      rw [lllLoop_succ_of_lt δ f B U hkn] at hres
      have hp : TransInv B₀ (sizeRedAux k k B U).1 (sizeRedAux k k B U).2
          ∧ Unimod (sizeRedAux k k B U).2 :=
        sizeRedAux_inv B₀ hkn k B U le_rfl h
      by_cases hcond : qmul (qsub δ
            (qmul (mu (ratM (sizeRedAux k k B U).1) k (k - 1))
              (mu (ratM (sizeRedAux k k B U).1) k (k - 1))))
          (Bnorm (ratM (sizeRedAux k k B U).1) (k - 1))
          ≤ Bnorm (ratM (sizeRedAux k k B U).1) k
      · rw [if_pos hcond] at hres
        exact ih (k + 1) _ _ B' U' (by omega) hres hp
      · rw [if_neg hcond] at hres
        refine ih (max (k - 1) 1) _ _ B' U' (le_max_right _ _) hres
          ⟨transInv_rswap (k - 1) k hp.1, ?_⟩
        exact unimod_rswap (by omega) hkn (by omega) hp.2

theorem reduce_ok_loop {n : ℕ} {fuel : ℕ} {B₀ B' U' : Matrix (Fin n) (Fin n) ℤ}
    {δ : ℚ} (h : reduce fuel B₀ δ = .ok (B', U')) :
    lllLoop δ fuel B₀ 1 1 = .ok (B', U') := by
  rw [reduce] at h
  by_cases h1 : ¬(mkRat 1 4 < δ ∧ δ < 1)
  · rw [if_pos h1] at h
    exact absurd h (by simp)
  · rw [if_neg h1] at h
    by_cases h2 : ∃ i : Fin n, ∀ c : Fin n, B₀ i c = 0
    · rw [if_pos h2] at h
      exact absurd h (by simp)
    · rw [if_neg h2] at h
      exact h

theorem reduce_inv {n : ℕ} {fuel : ℕ} {B₀ B' U' : Matrix (Fin n) (Fin n) ℤ}
    {δ : ℚ} (h : reduce fuel B₀ δ = .ok (B', U')) :
    TransInv B₀ B' U' ∧ Unimod U' := by
  refine lllLoop_inv δ B₀ fuel 1 B₀ 1 B' U' le_rfl (reduce_ok_loop h) ⟨?_, ?_⟩
  · rw [TransInv, Matrix.one_mul]
  · rw [Unimod, Matrix.det_one]
    left
    rfl

/-- C2: for every input integer basis accepted by `reduce`, the returned
transform and output basis satisfy `Transform · InputBasis = OutputBasis`
exactly, as an integer-matrix equality. -/
theorem reduce_reconstruction {n : ℕ} (fuel : ℕ)
    (B₀ B' U' : Matrix (Fin n) (Fin n) ℤ) (δ : ℚ)
    (h : reduce fuel B₀ δ = .ok (B', U')) : U' * B₀ = B' :=
  (reduce_inv h).1

/-- C2 witness: the transform returned on the concrete basis
`[[201,37],[1,29]]` with `δ = 3/4` reconstructs the output basis. -/
theorem reduce_reconstruction_witness :
    !![(0 : ℤ), 1; 1, -2] * !![(201 : ℤ), 37; 1, 29] = !![(1 : ℤ), 29; 199, -21] :=
  reduce_reconstruction 20 !![(201 : ℤ), 37; 1, 29] !![(1 : ℤ), 29; 199, -21]
    !![(0 : ℤ), 1; 1, -2] (mkRat 3 4) (by decide)

/-- C3: the invariant `Transform · OriginalBasis = Basis` together with
unimodularity (`det Transform = ±1`) holds at every point of a reduction run:
it is preserved by every elementary row combination, preserved by every
elementary row swap, and (starting from the identity transform) holds on
completion of every successful `reduce`. -/
theorem transform_invariant_everywhere {n : ℕ} :
    (∀ (B₀ B U : Matrix (Fin n) (Fin n) ℤ) (k j : ℕ) (q : ℤ),
      k < n → j < n → k ≠ j →
      TransInv B₀ B U ∧ Unimod U →
      TransInv B₀ (rcomb B k j q) (rcomb U k j q) ∧ Unimod (rcomb U k j q))
    ∧ (∀ (B₀ B U : Matrix (Fin n) (Fin n) ℤ) (a b₂ : ℕ),
      a < n → b₂ < n → a ≠ b₂ →
      TransInv B₀ B U ∧ Unimod U →
      TransInv B₀ (rswap B a b₂) (rswap U a b₂) ∧ Unimod (rswap U a b₂))
    ∧ (∀ (fuel : ℕ) (B₀ B' U' : Matrix (Fin n) (Fin n) ℤ) (δ : ℚ),
      reduce fuel B₀ δ = .ok (B', U') →
      TransInv B₀ B' U' ∧ Unimod U') := by
  refine ⟨?_, ?_, ?_⟩
  · intro B₀ B U k j q hk hj hkj h
    exact ⟨transInv_rcomb k j q h.1, unimod_rcomb hk hj hkj q h.2⟩
  · intro B₀ B U a b₂ ha hb hab h
    exact ⟨transInv_rswap a b₂ h.1, unimod_rswap ha hb hab h.2⟩
  · intro fuel B₀ B' U' δ h
    exact reduce_inv h

/-- C3 witness: the invariant-preservation statements instantiated on the
concrete basis `[[201,37],[1,29]]` with a combine, a swap, and a full
successful reduction. -/
theorem transform_invariant_everywhere_witness :
    (TransInv !![(201 : ℤ), 37; 1, 29] (rcomb !![(201 : ℤ), 37; 1, 29] 1 0 2)
        (rcomb (1 : Matrix (Fin 2) (Fin 2) ℤ) 1 0 2)
      ∧ Unimod (rcomb (1 : Matrix (Fin 2) (Fin 2) ℤ) 1 0 2))
    ∧ (TransInv !![(201 : ℤ), 37; 1, 29] (rswap !![(201 : ℤ), 37; 1, 29] 0 1)
        (rswap (1 : Matrix (Fin 2) (Fin 2) ℤ) 0 1)
      ∧ Unimod (rswap (1 : Matrix (Fin 2) (Fin 2) ℤ) 0 1))
    ∧ (TransInv !![(201 : ℤ), 37; 1, 29] !![(1 : ℤ), 29; 199, -21]
        !![(0 : ℤ), 1; 1, -2]
      ∧ Unimod !![(0 : ℤ), 1; 1, -2]) := by
  refine ⟨?_, ?_, ?_⟩
  · exact transform_invariant_everywhere.1 !![(201 : ℤ), 37; 1, 29]
      !![(201 : ℤ), 37; 1, 29] 1 1 0 2 (by decide) (by decide) (by decide)
      ⟨by unfold TransInv; decide, by unfold Unimod; decide⟩
  · exact transform_invariant_everywhere.2.1 !![(201 : ℤ), 37; 1, 29]
      !![(201 : ℤ), 37; 1, 29] 1 0 1 (by decide) (by decide) (by decide)
      ⟨by unfold TransInv; decide, by unfold Unimod; decide⟩
  · exact transform_invariant_everywhere.2.2 20 !![(201 : ℤ), 37; 1, 29]
      !![(1 : ℤ), 29; 199, -21] !![(0 : ℤ), 1; 1, -2] (mkRat 3 4) (by decide)

theorem mkRat_half : (mkRat 1 2 : ℚ) = 1 / 2 := by
  rw [Rat.mkRat_eq_divInt, Rat.divInt_eq_div]
  norm_num

theorem mkRat_quarter : (mkRat 1 4 : ℚ) = 1 / 4 := by
  rw [Rat.mkRat_eq_divInt, Rat.divInt_eq_div]
  norm_num

theorem half_lt_qabs_iff (x : ℚ) : mkRat 1 2 < qabs x ↔ 1 / 2 < |x| := by
  rw [qabs_eq, mkRat_half]

theorem mu_of_Bnorm_zero {n : ℕ} (b : Matrix (Fin n) (Fin n) ℚ) (i : ℕ)
    {j : ℕ} (h : Bnorm b j = 0) : mu b i j = 0 := by
  rw [mu_eq_div, h, div_zero]

theorem mu_congr_of_gso {n : ℕ} (b b' : Matrix (Fin n) (Fin n) ℚ) (i j : ℕ)
    (hrow : rowN b' i = rowN b i) (hgso : ∀ l, gso b' l = gso b l) :
    mu b' i j = mu b i j := by
  rw [mu_eq_div, mu_eq_div, hrow, hgso j, Bnorm, Bnorm, hgso j]

theorem Bnorm_congr_of_gso {n : ℕ} (b b' : Matrix (Fin n) (Fin n) ℚ) (j : ℕ)
    (hgso : ∀ l, gso b' l = gso b l) : Bnorm b' j = Bnorm b j := by
  rw [Bnorm, Bnorm, hgso j]

/-- Effect of a full size-reduction pass on row `k`: the Gram-Schmidt vectors
are unchanged, the other basis rows are unchanged, and all `μ_{k,l}` with
`l < k` end up bounded by `1/2` in absolute value. -/
theorem sizeRedAux_bound {n : ℕ} {k : ℕ} (hk : k < n) :
    ∀ jc (B U : Matrix (Fin n) (Fin n) ℤ), jc ≤ k →
      (∀ l, jc ≤ l → l < k → |mu (ratM B) k l| ≤ 1 / 2) →
      (∀ l, l < k → |mu (ratM (sizeRedAux k jc B U).1) k l| ≤ 1 / 2)
        ∧ (∀ i, gso (ratM (sizeRedAux k jc B U).1) i = gso (ratM B) i)
        ∧ (∀ i, i ≠ k →
            rowN (ratM (sizeRedAux k jc B U).1) i = rowN (ratM B) i) := by
  intro jc
  induction jc with
  | zero =>
    intro B U hle hmu
    rw [sizeRedAux_zero]
    exact ⟨fun l hl => hmu l (Nat.zero_le l) hl, fun i => rfl, fun i _ => rfl⟩
  | succ j ih =>
    intro B U hle hmu
    rw [sizeRedAux_succ]
    have hjk : j < k := by omega
    by_cases hcond : mkRat 1 2 < qabs (mu (ratM B) k j)
    · rw [if_pos hcond]
      rw [half_lt_qabs_iff] at hcond
      have hBj : Bnorm (ratM B) j ≠ 0 := by
        intro hz
        rw [mu_of_Bnorm_zero (ratM B) k hz] at hcond
        norm_num at hcond
      set q : ℤ := qround (mu (ratM B) k j) with hq
      have hcast : ratM (rcomb B k j q) = rcomb (ratM B) k j (q : ℚ) :=
        ratM_rcomb B k j q
      have hmu' : ∀ l, j ≤ l → l < k →
          |mu (ratM (rcomb B k j q)) k l| ≤ 1 / 2 := by
        intro l hjl hlk
        rw [hcast, mu_rcomb (ratM B) (q : ℚ) hjk hk k l, if_pos rfl]
        rcases eq_or_lt_of_le hjl with rfl | hlt
        · rw [mu_self_of_ne (ratM B) hBj, mul_one, hq, qround_eq]
          exact abs_sub_round (mu (ratM B) k j)
        · rw [mu_zero_of_lt (ratM B) hlt, mul_zero, sub_zero]
          exact hmu l (by omega) hlk
      have hres := ih (rcomb B k j q) (rcomb U k j q) (by omega) hmu'
      refine ⟨hres.1, ?_, ?_⟩
      · intro i
        rw [hres.2.1 i, hcast, gso_rcomb (ratM B) (q : ℚ) hjk i]
      · intro i hik
        rw [hres.2.2 i hik, hcast, rowN_rcomb_ne (ratM B) j (q : ℚ) hik]
    · rw [if_neg hcond]
      rw [half_lt_qabs_iff, not_lt] at hcond
      refine ih B U (by omega) ?_
      intro l hjl hlk
      rcases eq_or_lt_of_le hjl with rfl | hlt
      · exact hcond
      · exact hmu l (by omega) hlk

/-- The cursor invariant of the reduction loop: all rows below the cursor are
size-reduced and all adjacent pairs below the cursor satisfy the Lovász
condition. -/
def LLLInvariant {n : ℕ} (δ : ℚ) (b : Matrix (Fin n) (Fin n) ℚ) (k : ℕ) :
    Prop :=
  (∀ i, i < k → ∀ j, j < i → |mu b i j| ≤ 1 / 2)
    ∧ (∀ i, 1 ≤ i → i < k → (δ - mu b i (i - 1) ^ 2) * Bnorm b (i - 1) ≤ Bnorm b i)

theorem llinv_one {n : ℕ} (δ : ℚ) (b : Matrix (Fin n) (Fin n) ℚ) :
    LLLInvariant δ b 1 := by
  constructor
  · intro i hi j hj
    omega
  · intro i hi1 hi
    omega

theorem llinv_mono {n : ℕ} {δ : ℚ} {b : Matrix (Fin n) (Fin n) ℚ} {k k' : ℕ}
    (hk : k' ≤ k) (h : LLLInvariant δ b k) : LLLInvariant δ b k' :=
  ⟨fun i hi j hj => h.1 i (by omega) j hj, fun i hi1 hi => h.2 i hi1 (by omega)⟩

theorem llinv_transfer {n : ℕ} {δ : ℚ} {b b' : Matrix (Fin n) (Fin n) ℚ}
    {k : ℕ} (hrow : ∀ l, l < k → rowN b l = rowN b' l)
    (h : LLLInvariant δ b k) : LLLInvariant δ b' k := by
  constructor
  · intro i hi j hj
    rw [← mu_congr b b' i j (by omega) (fun l hl => hrow l (by omega))]
    exact h.1 i hi j hj
  · intro i hi1 hi
    rw [← mu_congr b b' i (i - 1) (by omega) (fun l hl => hrow l (by omega)),
      ← Bnorm_congr b b' i (fun l hl => hrow l (by omega)),
      ← Bnorm_congr b b' (i - 1) (fun l hl => hrow l (by omega))]
    exact h.2 i hi1 hi

theorem lovasz_bridge (δ m x y : ℚ) :
    qmul (qsub δ (qmul m m)) x ≤ y ↔ (δ - m ^ 2) * x ≤ y := by
  rw [qmul_eq, qsub_eq, qmul_eq, ← pow_two]

theorem lllLoop_reduced {n : ℕ} (δ : ℚ) :
    ∀ (fuel k : ℕ) (B U B' U' : Matrix (Fin n) (Fin n) ℤ), 1 ≤ k →
      LLLInvariant δ (ratM B) k →
      lllLoop δ fuel B U k = .ok (B', U') →
      LLLInvariant δ (ratM B') n := by
  intro fuel
  induction fuel with
  | zero =>
    intro k B U B' U' hk1 hinv hres
    by_cases hk : n ≤ k
    · have h2 : (B, U) = (B', U') :=
        Except.ok.inj ((lllLoop_of_le δ 0 B U hk).symm.trans hres)
      cases h2
      exact llinv_mono hk hinv
    · rw [lllLoop_zero_of_lt δ B U (lt_of_not_le hk)] at hres
      exact absurd hres (by simp)
  | succ f ih =>
    intro k B U B' U' hk1 hinv hres
    by_cases hk : n ≤ k
    · have h2 : (B, U) = (B', U') :=
        Except.ok.inj ((lllLoop_of_le δ (f + 1) B U hk).symm.trans hres)
      cases h2
      exact llinv_mono hk hinv
    · have hkn : k < n := lt_of_not_le hk
      rw [lllLoop_succ_of_lt δ f B U hkn] at hres
      obtain ⟨hbnd, hgso, hrow⟩ :=
        sizeRedAux_bound hkn k B U le_rfl (fun l hl1 hl2 => absurd hl2 (by omega))
      have hInvP : LLLInvariant δ (ratM (sizeRedAux k k B U).1) k :=
        llinv_transfer (fun l hl => (hrow l (by omega)).symm) hinv
      by_cases hcond : qmul (qsub δ
            (qmul (mu (ratM (sizeRedAux k k B U).1) k (k - 1))
              (mu (ratM (sizeRedAux k k B U).1) k (k - 1))))
          (Bnorm (ratM (sizeRedAux k k B U).1) (k - 1))
          ≤ Bnorm (ratM (sizeRedAux k k B U).1) k
      · rw [if_pos hcond] at hres
        rw [lovasz_bridge] at hcond
        have hInvK1 : LLLInvariant δ (ratM (sizeRedAux k k B U).1) (k + 1) := by
          constructor
          · intro i hi j hj
            by_cases hik : i = k
            · subst hik
              exact hbnd j hj
            · exact hInvP.1 i (by omega) j hj
          · intro i hi1 hi
            by_cases hik : i = k
            · subst hik
              exact hcond
            · exact hInvP.2 i hi1 (by omega)
        exact ih (k + 1) _ _ B' U' (by omega) hInvK1 hres
      · rw [if_neg hcond] at hres
        have hInvSwap : LLLInvariant δ
            (ratM (rswap (sizeRedAux k k B U).1 (k - 1) k)) (max (k - 1) 1) := by
          by_cases hk1' : k ≤ 1
          · have : max (k - 1) 1 = 1 := by omega
            rw [this]
            exact llinv_one δ _
          · have hmax : max (k - 1) 1 = k - 1 := by omega
            rw [hmax]
            refine llinv_transfer ?_ (llinv_mono (by omega) hInvP)
            intro l hl
            rw [ratM_rswap, rowN_rswap_ne _ (by omega : l ≠ k - 1) (by omega : l ≠ k)]
        exact ih (max (k - 1) 1) _ _ B' U' (le_max_right _ _) hInvSwap hres

/-- C1: every successful call to `reduce` returns a δ-LLL-reduced basis: all
Gram coefficients `μ_{k,j}` with `j < k` are at most `1/2` in absolute value,
and every adjacent pair satisfies the Lovász condition
`B_k ≥ (δ − μ_{k,k−1}²)·B_{k−1}`. -/
theorem reduce_reduced {n : ℕ} (fuel : ℕ)
    (B₀ B' U' : Matrix (Fin n) (Fin n) ℤ) (δ : ℚ)
    (h : reduce fuel B₀ δ = .ok (B', U')) :
    (∀ k, k < n → ∀ j, j < k → |mu (ratM B') k j| ≤ 1 / 2)
      ∧ (∀ k, 1 ≤ k → k < n →
        (δ - mu (ratM B') k (k - 1) ^ 2) * Bnorm (ratM B') (k - 1)
          ≤ Bnorm (ratM B') k) := by
  have hinv : LLLInvariant δ (ratM B') n :=
    lllLoop_reduced δ fuel 1 B₀ 1 B' U' le_rfl (llinv_one δ (ratM B₀))
      (reduce_ok_loop h)
  exact ⟨fun k hk j hj => hinv.1 k hk j hj, fun k hk1 hk => hinv.2 k hk1 hk⟩

/-- C1 witness: the reduced-form postconditions instantiated on the concrete
successful reduction of `[[201,37],[1,29]]` with `δ = 3/4`. -/
theorem reduce_reduced_witness :
    (∀ k, k < 2 → ∀ j, j < k →
      |mu (ratM !![(1 : ℤ), 29; 199, -21]) k j| ≤ 1 / 2)
      ∧ (∀ k, 1 ≤ k → k < 2 →
        (mkRat 3 4 - mu (ratM !![(1 : ℤ), 29; 199, -21]) k (k - 1) ^ 2)
            * Bnorm (ratM !![(1 : ℤ), 29; 199, -21]) (k - 1)
          ≤ Bnorm (ratM !![(1 : ℤ), 29; 199, -21]) k) :=
  reduce_reduced 20 !![(201 : ℤ), 37; 1, 29] !![(1 : ℤ), 29; 199, -21]
    !![(0 : ℤ), 1; 1, -2] (mkRat 3 4) (by decide)

theorem sizeRedAux_id {n : ℕ} {k : ℕ} {B U : Matrix (Fin n) (Fin n) ℤ}
    (hbnd : ∀ l, l < k → |mu (ratM B) k l| ≤ 1 / 2) :
    ∀ jc, jc ≤ k → sizeRedAux k jc B U = (B, U) := by
  intro jc
  induction jc with
  | zero =>
    intro hle
    exact sizeRedAux_zero k B U
  | succ j ih =>
    intro hle
    rw [sizeRedAux_succ]
    have hno : ¬mkRat 1 2 < qabs (mu (ratM B) k j) := by
      rw [half_lt_qabs_iff, not_lt]
      exact hbnd j (by omega)
    rw [if_neg hno]
    exact ih (by omega)

theorem lllLoop_id {n : ℕ} {δ : ℚ} {B U : Matrix (Fin n) (Fin n) ℤ}
    (hred : LLLInvariant δ (ratM B) n) :
    ∀ (fuel k : ℕ), 1 ≤ k → n ≤ fuel + k →
      lllLoop δ fuel B U k = .ok (B, U) := by
  intro fuel
  induction fuel with
  | zero =>
    intro k hk1 hfk
    exact lllLoop_of_le δ 0 B U (by omega)
  | succ f ih =>
    intro k hk1 hfk
    by_cases hk : n ≤ k
    · exact lllLoop_of_le δ (f + 1) B U hk
    · have hkn : k < n := lt_of_not_le hk
      rw [lllLoop_succ_of_lt δ f B U hkn]
      have hsz : sizeRedAux k k B U = (B, U) :=
        sizeRedAux_id (fun l hl => hred.1 k hkn l hl) k le_rfl
      rw [hsz]
      have hcond : qmul (qsub δ (qmul (mu (ratM B) k (k - 1))
            (mu (ratM B) k (k - 1)))) (Bnorm (ratM B) (k - 1))
          ≤ Bnorm (ratM B) k :=
        (lovasz_bridge δ _ _ _).mpr (hred.2 k hk1 hkn)
      rw [if_pos hcond]
      exact ih (k + 1) (by omega) (by omega)

/-- C9: reduction is idempotent: reducing a basis that is already
δ-LLL-reduced (with valid δ, no zero rows, and a sufficient step budget)
returns the basis unchanged with the identity transform. -/
theorem reduce_idempotent {n : ℕ} (fuel : ℕ) (B : Matrix (Fin n) (Fin n) ℤ)
    (δ : ℚ) (hδ : mkRat 1 4 < δ ∧ δ < 1)
    (hzero : ¬∃ i : Fin n, ∀ c : Fin n, B i c = 0)
    (hred : LLLInvariant δ (ratM B) n) (hfuel : n ≤ fuel + 1) :
    reduce fuel B δ = .ok (B, 1) := by
  rw [reduce, if_neg (not_not_intro hδ), if_neg hzero]
  exact lllLoop_id hred fuel 1 le_rfl hfuel

/-- C9 witness: reducing the already-reduced identity basis `[[1,0],[0,1]]`
with `δ = 3/4` returns it unchanged with the identity transform. -/
theorem reduce_idempotent_witness :
    reduce 5 (1 : Matrix (Fin 2) (Fin 2) ℤ) (mkRat 3 4) = .ok (1, 1) := by
  refine reduce_idempotent 5 1 (mkRat 3 4) (by decide) (by decide) ?_ (by omega)
  constructor
  · intro i hi j hj
    have hi1 : i = 1 := by omega
    have hj0 : j = 0 := by omega
    subst hi1
    subst hj0
    have hmu : mu (ratM (1 : Matrix (Fin 2) (Fin 2) ℤ)) 1 0 = 0 := by decide
    rw [hmu]
    norm_num
  · intro i hi1 hi
    have hi' : i = 1 := by omega
    subst hi'
    have hmu : mu (ratM (1 : Matrix (Fin 2) (Fin 2) ℤ)) 1 0 = 0 := by decide
    have hB0 : Bnorm (ratM (1 : Matrix (Fin 2) (Fin 2) ℤ)) 0 = 1 := by decide
    have hB1 : Bnorm (ratM (1 : Matrix (Fin 2) (Fin 2) ℤ)) 1 = 1 := by decide
    show (mkRat 3 4 - mu (ratM (1 : Matrix (Fin 2) (Fin 2) ℤ)) 1 (1 - 1) ^ 2)
        * Bnorm (ratM (1 : Matrix (Fin 2) (Fin 2) ℤ)) (1 - 1)
      ≤ Bnorm (ratM (1 : Matrix (Fin 2) (Fin 2) ℤ)) 1
    norm_num [hmu, hB0, hB1]

/-- One step of the deterministic linear-congruential generator used for
padding.  Modelled from the spec: the padding values are "small deterministic
pseudo-random values drawn from a fixed, explicitly seeded generator"; the
repository itself draws them from a globally seeded NumPy generator. -/
def lcgStep (s : ℕ) : ℕ := (1103515245 * s + 12345) % 2147483648

/-- Iterated generator steps. -/
def lcgIter : ℕ → ℕ → ℕ
  | 0, s => s
  | t + 1, s => lcgStep (lcgIter t s)

/-- The `t`-th padding bit drawn from the generator seeded with `pad_seed`;
always `0` or `1`. -/
def padBit (pad_seed : ℤ) (t : ℕ) : ℤ := ((lcgIter (t + 1) pad_seed.natAbs) % 2 : ℕ)

theorem padBit_zero_or_one (pad_seed : ℤ) (t : ℕ) :
    padBit pad_seed t = 0 ∨ padBit pad_seed t = 1 := by
  rw [padBit]
  rcases Nat.mod_two_eq_zero_or_one (lcgIter (t + 1) pad_seed.natAbs) with h | h
  · left
    rw [h]
    rfl
  · right
    rw [h]
    rfl

/-- Round a rational to the nearest integer, sending exact halves to the even
neighbour; this is the rounding `np.round` applies in the notebook's
embedding. -/
def roundEven (q : ℚ) : ℤ :=
  if qsub q ((⌊q⌋ : ℤ) : ℚ) = mkRat 1 2 then
    (if ⌊q⌋ % 2 = 0 then ⌊q⌋ else ⌊q⌋ + 1)
  else qround q

/-- The integer entry the embedding produces from a real feature entry and
the integer scale factor. -/
def scaledEntry (x : ℚ) (scale : ℤ) : ℤ := roundEven (qmul x ((scale : ℤ) : ℚ))

/-- The scaled matrix has (at least) two identical all-zero rows. -/
abbrev dupZeroRows (m d : ℕ) (f : Fin m → Fin d → ℚ) (scale : ℤ) : Prop :=
  ∃ i i' : Fin m, i ≠ i'
    ∧ (∀ j, scaledEntry (f i j) scale = 0)
    ∧ (∀ j, scaledEntry (f i' j) scale = 0)

/-- The square integer basis the embedding produces: the first `d` columns are
the scaled-and-rounded feature entries, the remaining `m − d` columns are
deterministic `{0,1}` padding drawn from the seeded generator. -/
def embedMatrix (m d : ℕ) (f : Fin m → Fin d → ℚ) (scale pad_seed : ℤ) :
    Matrix (Fin m) (Fin m) ℤ :=
  Matrix.of fun i j =>
    if h : (j : ℕ) < d then scaledEntry (f i ⟨(j : ℕ), h⟩) scale
    else padBit pad_seed ((i : ℕ) * (m - d) + ((j : ℕ) - d))

/-- The embedding layer, modelled from the spec: scale and round every entry,
fail with `DimensionError` when `m < d` or the scaled matrix has a duplicate
zero row, fail with `InvalidParameter` on a non-positive scale, and otherwise
pad with deterministic seeded `{0,1}` columns to a square basis. -/
def embed (m d : ℕ) (f : Fin m → Fin d → ℚ) (scale pad_seed : ℤ) :
    Except EmbedError (Matrix (Fin m) (Fin m) ℤ) :=
  if m < d then .error .dimensionError
  else if scale ≤ 0 then .error .invalidParameter
  else if dupZeroRows m d f scale then .error .dimensionError
  else .ok (embedMatrix m d f scale pad_seed)

/-- The sparse combination decoded from row `i` of the transform: identifiers
paired with their integer coefficients, in input column order, zero entries
omitted. -/
def decodeRow (m : ℕ) (U : Matrix (Fin m) (Fin m) ℤ) (ids : Fin m → String)
    (i : Fin m) : List (String × ℤ) :=
  (List.finRange m).filterMap fun j =>
    if U i j = 0 then none else some (ids j, U i j)

/-- The decoder: one sparse combination per transform row. -/
def decode (m : ℕ) (U : Matrix (Fin m) (Fin m) ℤ) (ids : Fin m → String) :
    List (List (String × ℤ)) :=
  (List.finRange m).map (decodeRow m U ids)

/-- Failure modes of the combined embed-then-reduce pipeline. -/
inductive CoreError where
  | embedFailure (e : EmbedError)
  | reduceFailure (e : LLLError)
deriving DecidableEq, Repr

/-- The core pipeline: embed the feature matrix, then reduce the resulting
basis.  The first argument models the ambient global random-generator state
that the notebook's implementation owns; the embedding reseeds the generator
from the explicit `pad_seed` parameter, so this ambient state never
influences the result. -/
def corePipeline (_g : ℕ) (m d : ℕ) (f : Fin m → Fin d → ℚ)
    (scale pad_seed : ℤ) (δ : ℚ) (fuel : ℕ) :
    Except CoreError
      (Matrix (Fin m) (Fin m) ℤ × Matrix (Fin m) (Fin m) ℤ) :=
  match embed m d f scale pad_seed with
  | .error e => .error (.embedFailure e)
  | .ok B =>
    match reduce fuel B δ with
    | .error e => .error (.reduceFailure e)
    | .ok r => .ok r

theorem embed_ok {m d : ℕ} {f : Fin m → Fin d → ℚ} {scale pad_seed : ℤ}
    (hmd : ¬m < d) (hscale : ¬scale ≤ 0) (hzr : ¬dupZeroRows m d f scale) :
    embed m d f scale pad_seed = .ok (embedMatrix m d f scale pad_seed) := by
  rw [embed, if_neg hmd, if_neg hscale, if_neg hzr]

theorem embed_ok_inv {m d : ℕ} {f : Fin m → Fin d → ℚ} {scale pad_seed : ℤ}
    {B : Matrix (Fin m) (Fin m) ℤ}
    (h : embed m d f scale pad_seed = .ok B) :
    B = embedMatrix m d f scale pad_seed := by
  rw [embed] at h
  by_cases h1 : m < d
  · rw [if_pos h1] at h
    exact absurd h (by simp)
  · rw [if_neg h1] at h
    by_cases h2 : scale ≤ 0
    · rw [if_pos h2] at h
      exact absurd h (by simp)
    · rw [if_neg h2] at h
      by_cases h3 : dupZeroRows m d f scale
      · rw [if_pos h3] at h
        exact absurd h (by simp)
      · rw [if_neg h3] at h
        exact (Except.ok.inj h).symm

theorem embedMatrix_entry_lt {m d : ℕ} (f : Fin m → Fin d → ℚ)
    (scale pad_seed : ℤ) (i j : Fin m) (h : (j : ℕ) < d) :
    embedMatrix m d f scale pad_seed i j = scaledEntry (f i ⟨(j : ℕ), h⟩) scale := by
  rw [embedMatrix]
  exact dif_pos h

theorem embedMatrix_entry_ge {m d : ℕ} (f : Fin m → Fin d → ℚ)
    (scale pad_seed : ℤ) (i j : Fin m) (h : d ≤ (j : ℕ)) :
    embedMatrix m d f scale pad_seed i j
      = padBit pad_seed ((i : ℕ) * (m - d) + ((j : ℕ) - d)) := by
  rw [embedMatrix]
  exact dif_neg (by omega)

theorem scaledEntry_eq (x : ℚ) (scale : ℤ) :
    scaledEntry x scale = roundEven (x * (scale : ℚ)) := by
  rw [scaledEntry, qmul_eq]

theorem roundEven_half (v : ℚ) (k : ℤ) (h : v = (k : ℚ) + 1 / 2) :
    roundEven v = (if k % 2 = 0 then k else k + 1) := by
  have hfloor : ⌊v⌋ = k := by
    rw [h, Int.floor_int_add]
    norm_num
  rw [roundEven, hfloor]
  rw [if_pos ?_]
  rw [qsub_eq, mkRat_half, h]
  ring

theorem roundEven_half_even (v : ℚ) (k : ℤ) (h : v = (k : ℚ) + 1 / 2) :
    Even (roundEven v) ∧ (roundEven v = k ∨ roundEven v = k + 1) := by
  rw [roundEven_half v k h]
  by_cases hk : k % 2 = 0
  · rw [if_pos hk]
    exact ⟨Int.even_iff.mpr hk, Or.inl rfl⟩
  · rw [if_neg hk]
    have h1 : k % 2 = 1 := Int.emod_two_eq_zero_or_one k |>.resolve_left hk
    exact ⟨Int.even_iff.mpr (by omega), Or.inr rfl⟩

/-- The feature matrix of end-to-end scenario D:
`[[1.0, 0.0], [0.0, 1.0], [0.5, 0.5]]`. -/
def scenD : Fin 3 → Fin 2 → ℚ :=
  ![![1, 0], ![0, 1], ![mkRat 1 2, mkRat 1 2]]

/-- C5: for `m ≥ d` (with a positive scale and no duplicate zero rows) the
embedding succeeds and yields a square `m×m` integer basis whose first `d`
columns are the feature entries scaled and rounded to the nearest integer and
whose remaining `m − d` columns are deterministic seeded `{0,1}` padding; in
particular, scenario D embeds `[[1,0],[0,1],[0.5,0.5]]` with scale 100 and
seed 1 into a basis whose first two columns are `[[100,0],[0,100],[50,50]]`
with a deterministic `{0,1}` third column. -/
theorem embed_shape_and_padding :
    (∀ (m d : ℕ) (f : Fin m → Fin d → ℚ) (scale pad_seed : ℤ),
      ¬m < d → ¬scale ≤ 0 → ¬dupZeroRows m d f scale →
      embed m d f scale pad_seed = .ok (embedMatrix m d f scale pad_seed)
        ∧ (∀ (i j : Fin m) (h : (j : ℕ) < d),
            embedMatrix m d f scale pad_seed i j
              = roundEven (f i ⟨(j : ℕ), h⟩ * (scale : ℚ)))
        ∧ (∀ i j : Fin m, d ≤ (j : ℕ) →
            embedMatrix m d f scale pad_seed i j = 0
              ∨ embedMatrix m d f scale pad_seed i j = 1))
    ∧ (embed 3 2 scenD 100 1 = .ok (embedMatrix 3 2 scenD 100 1)
        ∧ embedMatrix 3 2 scenD 100 1 0 0 = 100
        ∧ embedMatrix 3 2 scenD 100 1 0 1 = 0
        ∧ embedMatrix 3 2 scenD 100 1 1 0 = 0
        ∧ embedMatrix 3 2 scenD 100 1 1 1 = 100
        ∧ embedMatrix 3 2 scenD 100 1 2 0 = 50
        ∧ embedMatrix 3 2 scenD 100 1 2 1 = 50
        ∧ (∀ i : Fin 3, embedMatrix 3 2 scenD 100 1 i 2 = 0
            ∨ embedMatrix 3 2 scenD 100 1 i 2 = 1)) := by
  constructor
  · intro m d f scale pad_seed hmd hscale hzr
    refine ⟨embed_ok hmd hscale hzr, ?_, ?_⟩
    · intro i j h
      rw [embedMatrix_entry_lt f scale pad_seed i j h, scaledEntry_eq]
    · intro i j h
      rw [embedMatrix_entry_ge f scale pad_seed i j h]
      exact padBit_zero_or_one pad_seed _
  · refine ⟨by decide, by decide, by decide, by decide, by decide, by decide,
      by decide, by decide⟩

/-- C5 witness: the general embedding guarantees instantiated on the concrete
scenario-D feature matrix. -/
theorem embed_shape_and_padding_witness :
    embed 3 2 scenD 100 1 = .ok (embedMatrix 3 2 scenD 100 1)
      ∧ (∀ (i j : Fin 3) (h : (j : ℕ) < 2),
          embedMatrix 3 2 scenD 100 1 i j
            = roundEven (scenD i ⟨(j : ℕ), h⟩ * ((100 : ℤ) : ℚ)))
      ∧ (∀ i j : Fin 3, 2 ≤ (j : ℕ) →
          embedMatrix 3 2 scenD 100 1 i j = 0
            ∨ embedMatrix 3 2 scenD 100 1 i j = 1) :=
  embed_shape_and_padding.1 3 2 scenD 100 1 (by decide) (by decide) (by decide)

/-- C8: the embedding fails with `DimensionError` whenever the feature matrix
has more columns than rows (`m < d`), and likewise when the scaled matrix has
a duplicate zero row. -/
theorem embed_dimension_errors :
    ∀ (m d : ℕ) (f : Fin m → Fin d → ℚ) (scale pad_seed : ℤ),
      (m < d → embed m d f scale pad_seed = .error .dimensionError)
      ∧ (¬m < d → ¬scale ≤ 0 → dupZeroRows m d f scale →
          embed m d f scale pad_seed = .error .dimensionError) := by
  intro m d f scale pad_seed
  constructor
  · intro h
    rw [embed, if_pos h]
  · intro h1 h2 h3
    rw [embed, if_neg h1, if_neg h2, if_pos h3]

/-- C8 witness: a 1×2 feature matrix is rejected with `DimensionError`, and a
2×1 feature matrix whose scaled rows are both zero is also rejected with
`DimensionError`. -/
theorem embed_dimension_errors_witness :
    embed 1 2 (fun _ _ => (0 : ℚ)) 5 1 = .error .dimensionError
      ∧ embed 2 1 (fun _ _ => (0 : ℚ)) 5 1 = .error .dimensionError :=
  ⟨(embed_dimension_errors 1 2 (fun _ _ => (0 : ℚ)) 5 1).1 (by decide),
    (embed_dimension_errors 2 1 (fun _ _ => (0 : ℚ)) 5 1).2 (by decide)
      (by decide) (by decide)⟩

/-- C10: the embedding rounds half-to-even (`np.round` semantics): whenever a
scaled feature entry lies exactly halfway between two consecutive integers
`k` and `k+1`, the embedded integer entry is the even one of the two. -/
theorem embed_rounds_half_to_even :
    ∀ (m d : ℕ) (f : Fin m → Fin d → ℚ) (scale pad_seed : ℤ)
      (B : Matrix (Fin m) (Fin m) ℤ),
      embed m d f scale pad_seed = .ok B →
      ∀ (i j : Fin m) (h : (j : ℕ) < d) (k : ℤ),
        f i ⟨(j : ℕ), h⟩ * (scale : ℚ) = (k : ℚ) + 1 / 2 →
        Even (B i j) ∧ (B i j = k ∨ B i j = k + 1) := by
  intro m d f scale pad_seed B hok i j h k hhalf
  rw [embed_ok_inv hok, embedMatrix_entry_lt f scale pad_seed i j h,
    scaledEntry_eq]
  exact roundEven_half_even _ k hhalf

/-- C10 witness: the feature entry `1/200` scaled by `100` is exactly `1/2`
and embeds to `0`, the even neighbour. -/
theorem embed_rounds_half_to_even_witness :
    Even (!![(0 : ℤ)] 0 0) ∧ (!![(0 : ℤ)] 0 0 = 0 ∨ !![(0 : ℤ)] 0 0 = 0 + 1) :=
  embed_rounds_half_to_even 1 1 (fun _ _ => mkRat 1 200) 100 1 !![(0 : ℤ)]
    (by decide) 0 0 (by decide) 0
    (by rw [Rat.mkRat_eq_divInt, Rat.divInt_eq_div]; norm_num)

theorem decodeRow_eq_filter_map {m : ℕ} (U : Matrix (Fin m) (Fin m) ℤ)
    (ids : Fin m → String) (i : Fin m) :
    decodeRow m U ids i
      = ((List.finRange m).filter (fun j => decide (U i j ≠ 0))).map
          (fun j => (ids j, U i j)) := by
  rw [decodeRow]
  induction List.finRange m with
  | nil => rfl
  | cons a l ih =>
    by_cases ha : U i a = 0
    · simp [List.filterMap_cons, List.filter_cons, ha, ih]
    · simp [List.filterMap_cons, List.filter_cons, ha, ih]

/-- C7: the decoder produces exactly one sparse combination per transform row;
each row's combination pairs instrument identifiers with that row's integer
coefficients in input column order; every listed pair comes from a nonzero
entry of the row; and (for distinct identifiers) a pair is listed exactly when
the corresponding entry is nonzero — zero entries are omitted. -/
theorem decode_spec :
    ∀ (m : ℕ) (U : Matrix (Fin m) (Fin m) ℤ) (ids : Fin m → String),
      (decode m U ids).length = m
      ∧ (∀ i : Fin m, decodeRow m U ids i
          = ((List.finRange m).filter (fun j => decide (U i j ≠ 0))).map
              (fun j => (ids j, U i j)))
      ∧ (∀ i : Fin m, ∀ p ∈ decodeRow m U ids i,
          ∃ j : Fin m, U i j ≠ 0 ∧ p = (ids j, U i j))
      ∧ (Function.Injective ids →
          ∀ i j : Fin m, (ids j, U i j) ∈ decodeRow m U ids i ↔ U i j ≠ 0) := by
  intro m U ids
  refine ⟨?_, decodeRow_eq_filter_map U ids, ?_, ?_⟩
  · rw [decode, List.length_map, List.length_finRange]
  · intro i p hp
    rw [decodeRow, List.mem_filterMap] at hp
    obtain ⟨j, _, hj⟩ := hp
    by_cases hz : U i j = 0
    · rw [if_pos hz] at hj
      exact absurd hj (by simp)
    · rw [if_neg hz] at hj
      exact ⟨j, hz, (Option.some.inj hj).symm⟩
  · intro hinj i j
    constructor
    · intro hmem
      rw [decodeRow, List.mem_filterMap] at hmem
      obtain ⟨j', _, hj'⟩ := hmem
      by_cases hz : U i j' = 0
      · rw [if_pos hz] at hj'
        exact absurd hj' (by simp)
      · rw [if_neg hz] at hj'
        have hpair := Option.some.inj hj'
        have hid : ids j' = ids j := congrArg Prod.fst hpair
        have hjj : j' = j := hinj hid
        rw [← hjj]
        exact hz
    · intro hz
      rw [decodeRow, List.mem_filterMap]
      exact ⟨j, List.mem_finRange j, by rw [if_neg hz]⟩

/-- C7 witness: the decoder characterization instantiated on a concrete 2×2
transform with distinct instrument identifiers. -/
theorem decode_spec_witness :
    (decode 2 !![(3 : ℤ), 0; -1, 2] !["AAA", "BBB"]).length = 2
      ∧ (∀ i : Fin 2, decodeRow 2 !![(3 : ℤ), 0; -1, 2] !["AAA", "BBB"] i
          = ((List.finRange 2).filter
              (fun j => decide (!![(3 : ℤ), 0; -1, 2] i j ≠ 0))).map
              (fun j => (!["AAA", "BBB"] j, !![(3 : ℤ), 0; -1, 2] i j)))
      ∧ (∀ i : Fin 2, ∀ p ∈ decodeRow 2 !![(3 : ℤ), 0; -1, 2] !["AAA", "BBB"] i,
          ∃ j : Fin 2, !![(3 : ℤ), 0; -1, 2] i j ≠ 0
            ∧ p = (!["AAA", "BBB"] j, !![(3 : ℤ), 0; -1, 2] i j))
      ∧ (∀ i j : Fin 2,
            (!["AAA", "BBB"] j, !![(3 : ℤ), 0; -1, 2] i j)
                ∈ decodeRow 2 !![(3 : ℤ), 0; -1, 2] !["AAA", "BBB"] i
              ↔ !![(3 : ℤ), 0; -1, 2] i j ≠ 0) :=
  ⟨(decode_spec 2 !![(3 : ℤ), 0; -1, 2] !["AAA", "BBB"]).1,
    (decode_spec 2 !![(3 : ℤ), 0; -1, 2] !["AAA", "BBB"]).2.1,
    (decode_spec 2 !![(3 : ℤ), 0; -1, 2] !["AAA", "BBB"]).2.2.1,
    (decode_spec 2 !![(3 : ℤ), 0; -1, 2] !["AAA", "BBB"]).2.2.2 (by decide)⟩

/-- C6: the embed-then-reduce core is a pure function of its explicit inputs
(features, scale, pad seed, δ, step budget): the ambient global generator
state never influences the result, because the embedding reseeds the
generator from the explicit pad seed; hence identical explicit inputs always
produce identical output. -/
theorem corePipeline_pure :
    ∀ (g₁ g₂ : ℕ) (m d : ℕ) (f : Fin m → Fin d → ℚ) (scale pad_seed : ℤ)
      (δ : ℚ) (fuel : ℕ),
      corePipeline g₁ m d f scale pad_seed δ fuel
        = corePipeline g₂ m d f scale pad_seed δ fuel :=
  fun _ _ _ _ _ _ _ _ _ => rfl

theorem dot_add_right {n : ℕ} (x y y' : Fin n → ℚ) :
    dot x (y + y') = dot x y + dot x y' := by
  rw [dot_comm, dot_add_left, dot_comm y x, dot_comm y' x]

theorem dot_sub_right {n : ℕ} (x y y' : Fin n → ℚ) :
    dot x (y - y') = dot x y - dot x y' := by
  rw [dot_comm, dot_sub_left, dot_comm y x, dot_comm y' x]

theorem dot_smul_right {n : ℕ} (c : ℚ) (x y : Fin n → ℚ) :
    dot x (c • y) = c * dot x y := by
  rw [dot_comm, dot_smul_left, dot_comm y x]

/-- Full rank of a rational basis, expressed through its Gram-Schmidt data:
no orthogonalized vector degenerates to zero. -/
def FullRank {n : ℕ} (b : Matrix (Fin n) (Fin n) ℚ) : Prop :=
  ∀ i, i < n → Bnorm b i ≠ 0

/-- The incrementally maintained Gram-Schmidt data: the `μ` coefficients and
the squared norms `B` of the current basis. -/
structure GramSchmidtState (n : ℕ) where
  mu : ℕ → ℕ → ℚ
  B : ℕ → ℚ

/-- From-scratch computation of the Gram-Schmidt data of a basis.  Models
`initialize` from the spec. -/
def gsInit {n : ℕ} (b : Matrix (Fin n) (Fin n) ℚ) : GramSchmidtState n :=
  ⟨fun i j => mu b i j, fun i => Bnorm b i⟩

/-- Incremental state update after `row_i ← row_i − q·row_j` was applied to
the basis.  Modelled from the spec: the standard incremental update rule for
a single integer row combination, adjusting only `μ` row `i`. -/
def updCombine {n : ℕ} (s : GramSchmidtState n) (i j : ℕ) (q : ℚ) :
    GramSchmidtState n :=
  ⟨fun a c =>
    if a = i ∧ c < j then s.mu a c - q * s.mu j c
    else if a = i ∧ c = j then s.mu a c - q
    else s.mu a c,
    s.B⟩

/-- Incremental state update after swapping basis rows `i` and `i+1`.
Modelled from the spec: the standard closed-form update touching only the
`μ`/`B` values affected by the swap. -/
def updSwap {n : ℕ} (s : GramSchmidtState n) (i : ℕ) : GramSchmidtState n :=
  ⟨fun a c =>
    if a = i ∧ c < i then s.mu (i + 1) c
    else if a = i + 1 ∧ c < i then s.mu i c
    else if a = i + 1 ∧ c = i then
      s.mu (i + 1) i * s.B i / (s.B (i + 1) + s.mu (i + 1) i ^ 2 * s.B i)
    else if i + 1 < a ∧ c = i then
      (s.mu a (i + 1) * s.B (i + 1) + s.mu (i + 1) i * s.mu a i * s.B i)
        / (s.B (i + 1) + s.mu (i + 1) i ^ 2 * s.B i)
    else if i + 1 < a ∧ c = i + 1 then s.mu a i - s.mu (i + 1) i * s.mu a (i + 1)
    else s.mu a c,
   fun a =>
    if a = i then s.B (i + 1) + s.mu (i + 1) i ^ 2 * s.B i
    else if a = i + 1 then
      s.B i * s.B (i + 1) / (s.B (i + 1) + s.mu (i + 1) i ^ 2 * s.B i)
    else s.B a⟩

/-- An elementary basis mutation performed by the reducer. -/
inductive BasisMut where
  | combine (i j : ℕ) (q : ℤ)
  | swap (i : ℕ)
deriving DecidableEq, Repr

/-- Apply a mutation to the integer basis. -/
def applyMut {n : ℕ} (b : Matrix (Fin n) (Fin n) ℤ) : BasisMut →
    Matrix (Fin n) (Fin n) ℤ
  | .combine i j q => rcomb b i j q
  | .swap i => rswap b i (i + 1)

/-- Apply a sequence of mutations to the integer basis, oldest first. -/
def applyMuts {n : ℕ} (b : Matrix (Fin n) (Fin n) ℤ) :
    List BasisMut → Matrix (Fin n) (Fin n) ℤ
  | [] => b
  | m :: ms => applyMuts (applyMut b m) ms

/-- Mirror a mutation on the incremental Gram-Schmidt state. -/
def applyStateMut {n : ℕ} (s : GramSchmidtState n) : BasisMut →
    GramSchmidtState n
  | .combine i j q => updCombine s i j (q : ℚ)
  | .swap i => updSwap s i

/-- Mirror a sequence of mutations on the incremental state, oldest first. -/
def applyStateMuts {n : ℕ} (s : GramSchmidtState n) :
    List BasisMut → GramSchmidtState n
  | [] => s
  | m :: ms => applyStateMuts (applyStateMut s m) ms

/-- Well-formedness of a mutation: a combination subtracts an earlier row from
a later in-range row, a swap exchanges two adjacent in-range rows. -/
def MutOK (n : ℕ) : BasisMut → Prop
  | .combine i j _ => j < i ∧ i < n
  | .swap i => i + 1 < n

/-- Incremental combine update agrees with from-scratch recomputation on a
full-rank basis. -/
theorem updCombine_eq_gsInit {n : ℕ} (b : Matrix (Fin n) (Fin n) ℚ)
    {i j : ℕ} (q : ℚ) (hji : j < i) (hin : i < n) (hFR : FullRank b) :
    updCombine (gsInit b) i j q = gsInit (rcomb b i j q) := by
  have hBj : Bnorm b j ≠ 0 := hFR j (by omega)
  have hmujj : mu b j j = 1 := mu_self_of_ne b hBj
  rw [updCombine, gsInit, gsInit]
  refine congrArg₂ _ ?_ ?_
  · funext a c
    show (if a = i ∧ c < j then mu b a c - q * mu b j c
      else if a = i ∧ c = j then mu b a c - q
      else mu b a c) = mu (rcomb b i j q) a c
    rw [mu_rcomb b q hji hin a c]
    by_cases hai : a = i
    · subst hai
      rw [if_pos rfl]
      rcases lt_trichotomy c j with hc | hc | hc
      · rw [if_pos ⟨rfl, hc⟩]
      · subst hc
        rw [if_neg (by omega), if_pos ⟨rfl, rfl⟩, hmujj, mul_one]
      · rw [if_neg (by omega), if_neg (by omega),
          mu_zero_of_lt b hc, mul_zero, sub_zero]
    · rw [if_neg (by simp [hai]), if_neg (by simp [hai]), if_neg hai]
  · funext a
    show Bnorm b a = Bnorm (rcomb b i j q) a
    rw [Bnorm_rcomb b q hji a]

theorem fullRank_rcomb {n : ℕ} {b : Matrix (Fin n) (Fin n) ℚ} {i j : ℕ}
    (q : ℚ) (hji : j < i) (hFR : FullRank b) : FullRank (rcomb b i j q) := by
  intro a ha
  rw [Bnorm_rcomb b q hji a]
  exact hFR a ha

theorem Bnorm_pos {n : ℕ} {b : Matrix (Fin n) (Fin n) ℚ} {i : ℕ}
    (hFR : FullRank b) (hi : i < n) : 0 < Bnorm b i :=
  lt_of_le_of_ne (dot_self_nonneg _) (Ne.symm (hFR i hi))

theorem Bn_pos {n : ℕ} {b : Matrix (Fin n) (Fin n) ℚ} {i : ℕ}
    (hFR : FullRank b) (hi : i + 1 < n) :
    0 < Bnorm b (i + 1) + mu b (i + 1) i ^ 2 * Bnorm b i := by
  have h1 : 0 < Bnorm b (i + 1) := Bnorm_pos hFR hi
  have h2 : 0 ≤ mu b (i + 1) i ^ 2 * Bnorm b i :=
    mul_nonneg (sq_nonneg _) (dot_self_nonneg _)
  linarith

theorem gso_rswap_lt {n : ℕ} (b : Matrix (Fin n) (Fin n) ℚ) {i : ℕ}
    {l : ℕ} (hl : l < i) : gso (rswap b i (i + 1)) l = gso b l := by
  refine (gso_congr b (rswap b i (i + 1)) l ?_).symm
  intro l' hl'
  exact (rowN_rswap_ne b (by omega) (by omega)).symm

theorem gso_rswap_i {n : ℕ} (b : Matrix (Fin n) (Fin n) ℚ) {i : ℕ}
    (hi : i + 1 < n) :
    gso (rswap b i (i + 1)) i = gso b (i + 1) + mu b (i + 1) i • gso b i := by
  have hrow : rowN (rswap b i (i + 1)) i = rowN b (i + 1) :=
    rowN_rswap_left b (i + 1) (by omega)
  rw [gso_spec (rswap b i (i + 1)) i]
  have hterm : ∀ m ∈ Finset.range i,
      mu (rswap b i (i + 1)) i m • gso (rswap b i (i + 1)) m
        = mu b (i + 1) m • gso b m := by
    intro m hm
    have hm' : m < i := Finset.mem_range.mp hm
    have hg : gso (rswap b i (i + 1)) m = gso b m := gso_rswap_lt b hm'
    have hB : Bnorm (rswap b i (i + 1)) m = Bnorm b m := by
      rw [Bnorm, Bnorm, hg]
    rw [mu_eq_div, hg, hrow, hB, ← mu_eq_div]
  rw [Finset.sum_congr rfl hterm, hrow, gso_spec b (i + 1),
    Finset.sum_range_succ]
  abel

theorem Bnorm_rswap_i {n : ℕ} (b : Matrix (Fin n) (Fin n) ℚ) {i : ℕ}
    (hi : i + 1 < n) :
    Bnorm (rswap b i (i + 1)) i
      = Bnorm b (i + 1) + mu b (i + 1) i ^ 2 * Bnorm b i := by
  have hd1 : dot (gso b i) (gso b i) = Bnorm b i := rfl
  have hd2 : dot (gso b (i + 1)) (gso b (i + 1)) = Bnorm b (i + 1) := rfl
  rw [Bnorm, gso_rswap_i b hi, dot_add_left, dot_add_right, dot_add_right,
    dot_smul_left, dot_smul_left, dot_smul_right, dot_smul_right,
    dot_gso_gso b (by omega : i + 1 ≠ i), dot_gso_gso b (by omega : i ≠ i + 1),
    hd1, hd2]
  ring

theorem mu_rswap_i1_i {n : ℕ} (b : Matrix (Fin n) (Fin n) ℚ) {i : ℕ}
    (hi : i + 1 < n) :
    mu (rswap b i (i + 1)) (i + 1) i
      = mu b (i + 1) i * Bnorm b i
          / (Bnorm b (i + 1) + mu b (i + 1) i ^ 2 * Bnorm b i) := by
  have hrow : rowN (rswap b i (i + 1)) (i + 1) = rowN b i :=
    rowN_rswap_right b hi (by omega)
  rw [mu_eq_div, hrow, gso_rswap_i b hi, Bnorm_rswap_i b hi,
    dot_add_right, dot_smul_right, dot_row_gso_of_lt b (by omega : i < i + 1),
    dot_row_gso_self, zero_add, mul_comm]

theorem gso_rswap_i1 {n : ℕ} (b : Matrix (Fin n) (Fin n) ℚ) {i : ℕ}
    (hi : i + 1 < n) (hFR : FullRank b) :
    gso (rswap b i (i + 1)) (i + 1)
      = (Bnorm b (i + 1) / (Bnorm b (i + 1) + mu b (i + 1) i ^ 2 * Bnorm b i))
          • gso b i
        - (mu b (i + 1) i * Bnorm b i
            / (Bnorm b (i + 1) + mu b (i + 1) i ^ 2 * Bnorm b i))
          • gso b (i + 1) := by
  have hrow : rowN (rswap b i (i + 1)) (i + 1) = rowN b i :=
    rowN_rswap_right b hi (by omega)
  have hBn : Bnorm b (i + 1) + mu b (i + 1) i ^ 2 * Bnorm b i ≠ 0 :=
    (Bn_pos hFR hi).ne'
  rw [gso_spec (rswap b i (i + 1)) (i + 1), Finset.sum_range_succ]
  have hterm : ∀ m ∈ Finset.range i,
      mu (rswap b i (i + 1)) (i + 1) m • gso (rswap b i (i + 1)) m
        = mu b i m • gso b m := by
    intro m hm
    have hm' : m < i := Finset.mem_range.mp hm
    have hg : gso (rswap b i (i + 1)) m = gso b m := gso_rswap_lt b hm'
    have hB : Bnorm (rswap b i (i + 1)) m = Bnorm b m := by
      rw [Bnorm, Bnorm, hg]
    rw [mu_eq_div, hg, hrow, hB, ← mu_eq_div]
  rw [Finset.sum_congr rfl hterm, hrow, mu_rswap_i1_i b hi, gso_rswap_i b hi]
  have hgsoi : rowN b i - ∑ m ∈ Finset.range i, mu b i m • gso b m = gso b i :=
    (gso_spec b i).symm
  funext c
  have hci := congrArg (fun v => v c) hgsoi
  simp only [Pi.sub_apply, Pi.add_apply, Pi.smul_apply, Finset.sum_apply,
    smul_eq_mul] at hci ⊢
  rw [← sub_sub, hci]
  field_simp
  ring

theorem Bnorm_rswap_i1 {n : ℕ} (b : Matrix (Fin n) (Fin n) ℚ) {i : ℕ}
    (hi : i + 1 < n) (hFR : FullRank b) :
    Bnorm (rswap b i (i + 1)) (i + 1)
      = Bnorm b i * Bnorm b (i + 1)
          / (Bnorm b (i + 1) + mu b (i + 1) i ^ 2 * Bnorm b i) := by
  have hBn : Bnorm b (i + 1) + mu b (i + 1) i ^ 2 * Bnorm b i ≠ 0 :=
    (Bn_pos hFR hi).ne'
  have hd1 : dot (gso b i) (gso b i) = Bnorm b i := rfl
  have hd2 : dot (gso b (i + 1)) (gso b (i + 1)) = Bnorm b (i + 1) := rfl
  rw [Bnorm, gso_rswap_i1 b hi hFR]
  simp only [dot_sub_left, dot_sub_right, dot_smul_left, dot_smul_right]
  rw [dot_gso_gso b (by omega : i + 1 ≠ i), dot_gso_gso b (by omega : i ≠ i + 1),
    hd1, hd2]
  field_simp
  ring

theorem mu_rswap_col_i {n : ℕ} (b : Matrix (Fin n) (Fin n) ℚ) {i : ℕ}
    (hi : i + 1 < n) {l : ℕ} (hl : l ≠ i) (hl2 : l ≠ i + 1) :
    mu (rswap b i (i + 1)) l i
      = (mu b l (i + 1) * Bnorm b (i + 1)
          + mu b (i + 1) i * mu b l i * Bnorm b i)
        / (Bnorm b (i + 1) + mu b (i + 1) i ^ 2 * Bnorm b i) := by
  rw [mu_eq_div, rowN_rswap_ne b hl hl2, gso_rswap_i b hi, Bnorm_rswap_i b hi,
    dot_add_right, dot_smul_right]
  rw [← mu_mul_Bnorm b l (i + 1), ← mu_mul_Bnorm b l i, ← mul_assoc]

theorem mu_rswap_col_i1 {n : ℕ} (b : Matrix (Fin n) (Fin n) ℚ) {i : ℕ}
    (hi : i + 1 < n) (hFR : FullRank b) {l : ℕ} (hl : l ≠ i) (hl2 : l ≠ i + 1) :
    mu (rswap b i (i + 1)) l (i + 1)
      = mu b l i - mu b (i + 1) i * mu b l (i + 1) := by
  have hBi : Bnorm b i ≠ 0 := hFR i (by omega)
  have hBi1 : Bnorm b (i + 1) ≠ 0 := hFR (i + 1) hi
  have hBn : Bnorm b (i + 1) + mu b (i + 1) i ^ 2 * Bnorm b i ≠ 0 :=
    (Bn_pos hFR hi).ne'
  rw [mu_eq_div, rowN_rswap_ne b hl hl2, gso_rswap_i1 b hi hFR,
    Bnorm_rswap_i1 b hi hFR, dot_sub_right, dot_smul_right, dot_smul_right]
  rw [← mu_mul_Bnorm b l (i + 1), ← mu_mul_Bnorm b l i]
  field_simp
  ring

/-- A swap of rows `i`, `i+1` leaves the orthogonalized vectors of all later
rows unchanged. -/
theorem gso_rswap_gt {n : ℕ} (b : Matrix (Fin n) (Fin n) ℚ) {i : ℕ}
    (hi : i + 1 < n) (hFR : FullRank b) :
    ∀ l, i + 1 < l → gso (rswap b i (i + 1)) l = gso b l := by
  intro l
  induction l using Nat.strong_induction_on with
  | _ l ih =>
    intro hl
    by_cases hln : l < n
    · have hBi : Bnorm b i ≠ 0 := hFR i (by omega)
      have hBi1 : Bnorm b (i + 1) ≠ 0 := hFR (i + 1) hi
      have hBn : Bnorm b (i + 1) + mu b (i + 1) i ^ 2 * Bnorm b i ≠ 0 :=
        (Bn_pos hFR hi).ne'
      have hgm : ∀ m, m ≠ i → m ≠ i + 1 → m < l →
          gso (rswap b i (i + 1)) m = gso b m := by
        intro m hmi hmi1 hml
        rcases lt_trichotomy m i with hm | hm | hm
        · exact gso_rswap_lt b hm
        · exact absurd hm hmi
        · exact ih m hml (by omega)
      have hmum : ∀ m, m ≠ i → m ≠ i + 1 → m < l →
          mu (rswap b i (i + 1)) l m = mu b l m := by
        intro m hmi hmi1 hml
        have hg := hgm m hmi hmi1 hml
        have hB : Bnorm (rswap b i (i + 1)) m = Bnorm b m := by
          rw [Bnorm, Bnorm, hg]
        rw [mu_eq_div, rowN_rswap_ne b (by omega) (by omega), hg, hB,
          ← mu_eq_div]
      rw [gso_spec (rswap b i (i + 1)) l, gso_spec b l,
        rowN_rswap_ne b (by omega) (by omega)]
      have hmemi : i ∈ Finset.range l := Finset.mem_range.mpr (by omega)
      have hmemi1 : i + 1 ∈ (Finset.range l).erase i :=
        Finset.mem_erase.mpr ⟨by omega, Finset.mem_range.mpr (by omega)⟩
      have hsplitF : ∑ m ∈ Finset.range l,
            mu (rswap b i (i + 1)) l m • gso (rswap b i (i + 1)) m
          = mu (rswap b i (i + 1)) l i • gso (rswap b i (i + 1)) i
            + (mu (rswap b i (i + 1)) l (i + 1) • gso (rswap b i (i + 1)) (i + 1)
              + ∑ m ∈ ((Finset.range l).erase i).erase (i + 1),
                  mu (rswap b i (i + 1)) l m • gso (rswap b i (i + 1)) m) := by
        rw [← Finset.add_sum_erase (Finset.range l) _ hmemi,
          ← Finset.add_sum_erase ((Finset.range l).erase i) _ hmemi1]
      have hsplitG : ∑ m ∈ Finset.range l, mu b l m • gso b m
          = mu b l i • gso b i
            + (mu b l (i + 1) • gso b (i + 1)
              + ∑ m ∈ ((Finset.range l).erase i).erase (i + 1),
                  mu b l m • gso b m) := by
        rw [← Finset.add_sum_erase (Finset.range l) _ hmemi,
          ← Finset.add_sum_erase ((Finset.range l).erase i) _ hmemi1]
      rw [hsplitF, hsplitG]
      have htail : ∑ m ∈ ((Finset.range l).erase i).erase (i + 1),
            mu (rswap b i (i + 1)) l m • gso (rswap b i (i + 1)) m
          = ∑ m ∈ ((Finset.range l).erase i).erase (i + 1),
              mu b l m • gso b m := by
        refine Finset.sum_congr rfl (fun m hm => ?_)
        obtain ⟨hmne1, hm'⟩ := Finset.mem_erase.mp hm
        obtain ⟨hmnei, hmrange⟩ := Finset.mem_erase.mp hm'
        have hml : m < l := Finset.mem_range.mp hmrange
        rw [hmum m hmnei hmne1 hml, hgm m hmnei hmne1 hml]
      rw [htail]
      have hpair : mu (rswap b i (i + 1)) l i • gso (rswap b i (i + 1)) i
            + mu (rswap b i (i + 1)) l (i + 1) • gso (rswap b i (i + 1)) (i + 1)
          = mu b l i • gso b i + mu b l (i + 1) • gso b (i + 1) := by
        rw [mu_rswap_col_i b hi (by omega) (by omega),
          mu_rswap_col_i1 b hi hFR (by omega) (by omega),
          gso_rswap_i b hi, gso_rswap_i1 b hi hFR]
        funext c
        simp only [Pi.add_apply, Pi.sub_apply, Pi.smul_apply, smul_eq_mul]
        field_simp
        ring
      rw [← add_assoc, ← add_assoc, hpair]
    · rw [gso_of_ge _ (by omega : n ≤ l), gso_of_ge b (by omega : n ≤ l)]

theorem mu_rswap_col_other {n : ℕ} (b : Matrix (Fin n) (Fin n) ℚ) {i : ℕ}
    (hi : i + 1 < n) (hFR : FullRank b) {a r c : ℕ}
    (hrow : rowN (rswap b i (i + 1)) a = rowN b r)
    (hc : c < i ∨ i + 1 < c) :
    mu (rswap b i (i + 1)) a c = mu b r c := by
  have hg : gso (rswap b i (i + 1)) c = gso b c := by
    rcases hc with hc | hc
    · exact gso_rswap_lt b hc
    · exact gso_rswap_gt b hi hFR c hc
  have hB : Bnorm (rswap b i (i + 1)) c = Bnorm b c := by
    rw [Bnorm, Bnorm, hg]
  rw [mu_eq_div, hrow, hg, hB, ← mu_eq_div]

theorem mu_rswap_col_i_gen {n : ℕ} (b : Matrix (Fin n) (Fin n) ℚ) {i : ℕ}
    (hi : i + 1 < n) {a r : ℕ}
    (hrow : rowN (rswap b i (i + 1)) a = rowN b r) :
    mu (rswap b i (i + 1)) a i
      = (mu b r (i + 1) * Bnorm b (i + 1)
          + mu b (i + 1) i * mu b r i * Bnorm b i)
        / (Bnorm b (i + 1) + mu b (i + 1) i ^ 2 * Bnorm b i) := by
  rw [mu_eq_div, hrow, gso_rswap_i b hi, Bnorm_rswap_i b hi,
    dot_add_right, dot_smul_right]
  rw [← mu_mul_Bnorm b r (i + 1), ← mu_mul_Bnorm b r i, ← mul_assoc]

theorem mu_rswap_col_i1_gen {n : ℕ} (b : Matrix (Fin n) (Fin n) ℚ) {i : ℕ}
    (hi : i + 1 < n) (hFR : FullRank b) {a r : ℕ}
    (hrow : rowN (rswap b i (i + 1)) a = rowN b r) :
    mu (rswap b i (i + 1)) a (i + 1)
      = mu b r i - mu b (i + 1) i * mu b r (i + 1) := by
  have hBi : Bnorm b i ≠ 0 := hFR i (by omega)
  have hBi1 : Bnorm b (i + 1) ≠ 0 := hFR (i + 1) hi
  have hBn : Bnorm b (i + 1) + mu b (i + 1) i ^ 2 * Bnorm b i ≠ 0 :=
    (Bn_pos hFR hi).ne'
  rw [mu_eq_div, hrow, gso_rswap_i1 b hi hFR, Bnorm_rswap_i1 b hi hFR,
    dot_sub_right, dot_smul_right, dot_smul_right]
  rw [← mu_mul_Bnorm b r (i + 1), ← mu_mul_Bnorm b r i]
  field_simp
  ring

/-- Incremental swap update agrees with from-scratch recomputation on a
full-rank basis. -/
theorem updSwap_eq_gsInit {n : ℕ} (b : Matrix (Fin n) (Fin n) ℚ) {i : ℕ}
    (hi : i + 1 < n) (hFR : FullRank b) :
    updSwap (gsInit b) i = gsInit (rswap b i (i + 1)) := by
  have hBi : Bnorm b i ≠ 0 := hFR i (by omega)
  have hBi1 : Bnorm b (i + 1) ≠ 0 := hFR (i + 1) hi
  have hBn : Bnorm b (i + 1) + mu b (i + 1) i ^ 2 * Bnorm b i ≠ 0 :=
    (Bn_pos hFR hi).ne'
  have hrowi : rowN (rswap b i (i + 1)) i = rowN b (i + 1) :=
    rowN_rswap_left b (i + 1) (by omega)
  have hrowi1 : rowN (rswap b i (i + 1)) (i + 1) = rowN b i :=
    rowN_rswap_right b hi (by omega)
  have hmuii : mu b i i = 1 := mu_self_of_ne b hBi
  have hmui1i1 : mu b (i + 1) (i + 1) = 1 := mu_self_of_ne b hBi1
  have hmuii1 : mu b i (i + 1) = 0 := mu_zero_of_lt b (by omega)
  refine congrArg₂ GramSchmidtState.mk ?_ ?_
  · funext a c
    show (if a = i ∧ c < i then mu b (i + 1) c
      else if a = i + 1 ∧ c < i then mu b i c
      else if a = i + 1 ∧ c = i then
        mu b (i + 1) i * Bnorm b i
          / (Bnorm b (i + 1) + mu b (i + 1) i ^ 2 * Bnorm b i)
      else if i + 1 < a ∧ c = i then
        (mu b a (i + 1) * Bnorm b (i + 1)
            + mu b (i + 1) i * mu b a i * Bnorm b i)
          / (Bnorm b (i + 1) + mu b (i + 1) i ^ 2 * Bnorm b i)
      else if i + 1 < a ∧ c = i + 1 then
        mu b a i - mu b (i + 1) i * mu b a (i + 1)
      else mu b a c) = mu (rswap b i (i + 1)) a c
    by_cases hai : a = i
    · subst hai
      rcases lt_trichotomy c a with hc | hc | hc
      · rw [if_pos ⟨rfl, hc⟩, mu_rswap_col_other b hi hFR hrowi (Or.inl hc)]
      · subst hc
        rw [if_neg (by omega), if_neg (by omega), if_neg (by omega),
          if_neg (by omega), if_neg (by omega),
          mu_rswap_col_i_gen b hi hrowi, hmui1i1, one_mul, hmuii]
        rw [eq_comm, div_eq_one_iff_eq hBn]
        ring
      · rcases Nat.lt_or_ge c (a + 1 + 1) with hc2 | hc2
        · have hcc : c = a + 1 := by omega
          subst hcc
          rw [if_neg (by omega), if_neg (by omega), if_neg (by omega),
            if_neg (by omega), if_neg (by omega),
            mu_rswap_col_i1_gen b hi hFR hrowi, hmui1i1, mul_one, sub_self,
            hmuii1]
        · rw [if_neg (by omega), if_neg (by omega), if_neg (by omega),
            if_neg (by omega), if_neg (by omega),
            mu_rswap_col_other b hi hFR hrowi (Or.inr (by omega)),
            mu_zero_of_lt b (by omega), mu_zero_of_lt b (by omega)]
    · by_cases hai1 : a = i + 1
      · subst hai1
        rcases lt_trichotomy c i with hc | hc | hc
        · rw [if_neg (by omega), if_pos ⟨rfl, hc⟩,
            mu_rswap_col_other b hi hFR hrowi1 (Or.inl hc)]
        · subst hc
          rw [if_neg (by omega), if_neg (by omega), if_pos ⟨rfl, rfl⟩,
            mu_rswap_col_i_gen b hi hrowi1, hmuii1, zero_mul, zero_add,
            hmuii, mul_one]
        · rcases Nat.lt_or_ge c (i + 1 + 1) with hc2 | hc2
          · have hcc : c = i + 1 := by omega
            subst hcc
            rw [if_neg (by omega), if_neg (by omega), if_neg (by omega),
              if_neg (by omega), if_neg (by omega),
              mu_rswap_col_i1_gen b hi hFR hrowi1, hmuii, hmuii1, mul_zero,
              sub_zero, hmui1i1]
          · rw [if_neg (by omega), if_neg (by omega), if_neg (by omega),
              if_neg (by omega), if_neg (by omega),
              mu_rswap_col_other b hi hFR hrowi1 (Or.inr (by omega)),
              mu_zero_of_lt b (by omega), mu_zero_of_lt b (by omega)]
      · have hrowa : rowN (rswap b i (i + 1)) a = rowN b a :=
          rowN_rswap_ne b hai hai1
        rcases lt_trichotomy a i with ha | ha | ha
        · rcases lt_trichotomy c i with hc | hc | hc
          · rw [if_neg (by omega), if_neg (by omega), if_neg (by omega),
              if_neg (by omega), if_neg (by omega),
              mu_rswap_col_other b hi hFR hrowa (Or.inl hc)]
          · subst hc
            rw [if_neg (by omega), if_neg (by omega), if_neg (by omega),
              if_neg (by omega), if_neg (by omega),
              mu_rswap_col_i_gen b hi hrowa]
            simp [mu_zero_of_lt b (show a < c by omega),
              mu_zero_of_lt b (show a < c + 1 by omega)]
          · rcases Nat.lt_or_ge c (i + 1 + 1) with hc2 | hc2
            · have hcc : c = i + 1 := by omega
              subst hcc
              rw [if_neg (by omega), if_neg (by omega), if_neg (by omega),
                if_neg (by omega), if_neg (by omega),
                mu_rswap_col_i1_gen b hi hFR hrowa]
              simp [mu_zero_of_lt b (show a < i by omega),
                mu_zero_of_lt b (show a < i + 1 by omega)]
            · rw [if_neg (by omega), if_neg (by omega), if_neg (by omega),
                if_neg (by omega), if_neg (by omega),
                mu_rswap_col_other b hi hFR hrowa (Or.inr (by omega))]
        · omega
        · have ha2 : i + 1 < a := by omega
          rcases lt_trichotomy c i with hc | hc | hc
          · rw [if_neg (by omega), if_neg (by omega), if_neg (by omega),
              if_neg (by omega), if_neg (by omega),
              mu_rswap_col_other b hi hFR hrowa (Or.inl hc)]
          · subst hc
            rw [if_neg (by omega), if_neg (by omega), if_neg (by omega),
              if_pos ⟨ha2, rfl⟩, mu_rswap_col_i_gen b hi hrowa]
          · rcases Nat.lt_or_ge c (i + 1 + 1) with hc2 | hc2
            · have hcc : c = i + 1 := by omega
              subst hcc
              rw [if_neg (by omega), if_neg (by omega), if_neg (by omega),
                if_neg (by omega), if_pos ⟨ha2, rfl⟩,
                mu_rswap_col_i1_gen b hi hFR hrowa]
            · rw [if_neg (by omega), if_neg (by omega), if_neg (by omega),
                if_neg (by omega), if_neg (by omega),
                mu_rswap_col_other b hi hFR hrowa (Or.inr (by omega))]
  · funext a
    show (if a = i then Bnorm b (i + 1) + mu b (i + 1) i ^ 2 * Bnorm b i
      else if a = i + 1 then
        Bnorm b i * Bnorm b (i + 1)
          / (Bnorm b (i + 1) + mu b (i + 1) i ^ 2 * Bnorm b i)
      else Bnorm b a) = Bnorm (rswap b i (i + 1)) a
    by_cases hai : a = i
    · subst hai
      rw [if_pos rfl, Bnorm_rswap_i b hi]
    · by_cases hai1 : a = i + 1
      · subst hai1
        rw [if_neg hai, if_pos rfl, Bnorm_rswap_i1 b hi hFR]
      · rw [if_neg hai, if_neg hai1]
        rcases lt_trichotomy a i with ha | ha | ha
        · rw [Bnorm, Bnorm, gso_rswap_lt b ha]
        · exact absurd ha hai
        · have ha2 : i + 1 < a := by omega
          rw [Bnorm, Bnorm, gso_rswap_gt b hi hFR a ha2]

theorem fullRank_rswap {n : ℕ} {b : Matrix (Fin n) (Fin n) ℚ} {i : ℕ}
    (hi : i + 1 < n) (hFR : FullRank b) : FullRank (rswap b i (i + 1)) := by
  have hBi : 0 < Bnorm b i := Bnorm_pos hFR (by omega)
  have hBi1 : 0 < Bnorm b (i + 1) := Bnorm_pos hFR hi
  have hBn : 0 < Bnorm b (i + 1) + mu b (i + 1) i ^ 2 * Bnorm b i :=
    Bn_pos hFR hi
  intro a ha
  by_cases hai : a = i
  · subst hai
    rw [Bnorm_rswap_i b hi]
    exact hBn.ne'
  · by_cases hai1 : a = i + 1
    · subst hai1
      rw [Bnorm_rswap_i1 b hi hFR]
      positivity
    · rcases lt_trichotomy a i with h | h | h
      · rw [Bnorm, gso_rswap_lt b h]
        exact hFR a ha
      · exact absurd h hai
      · have ha2 : i + 1 < a := by omega
        rw [Bnorm, gso_rswap_gt b hi hFR a ha2]
        exact hFR a ha

instance mutOKDec {n : ℕ} : DecidablePred (MutOK n) := fun m =>
  match m with
  | .combine i j _ => decidable_of_iff (j < i ∧ i < n) Iff.rfl
  | .swap i => decidable_of_iff (i + 1 < n) Iff.rfl

/-- C4: after any sequence of well-formed incremental updates mirroring the
actual basis mutations, the incrementally maintained `μ` coefficients and `B`
norms are exactly equal — in exact rational arithmetic — to what a
from-scratch recomputation on the mutated basis produces, for every
full-rank starting basis. -/
theorem gramSchmidt_incremental_eq {n : ℕ} :
    ∀ (ms : List BasisMut) (b : Matrix (Fin n) (Fin n) ℤ),
      FullRank (ratM b) → (∀ mx ∈ ms, MutOK n mx) →
      applyStateMuts (gsInit (ratM b)) ms = gsInit (ratM (applyMuts b ms)) := by
  intro ms
  induction ms with
  | nil =>
    intro b hFR hOK
    rfl
  | cons m ms ih =>
    intro b hFR hOK
    have hm : MutOK n m := hOK m (List.mem_cons_self m ms)
    have hrest : ∀ mx ∈ ms, MutOK n mx :=
      fun mx hmx => hOK mx (List.mem_cons_of_mem m hmx)
    show applyStateMuts (applyStateMut (gsInit (ratM b)) m) ms
      = gsInit (ratM (applyMuts (applyMut b m) ms))
    cases m with
    | combine i j q =>
      obtain ⟨hji, hin⟩ := hm
      have hstep : applyStateMut (gsInit (ratM b)) (.combine i j q)
          = gsInit (ratM (applyMut b (.combine i j q))) := by
        show updCombine (gsInit (ratM b)) i j (q : ℚ)
          = gsInit (ratM (rcomb b i j q))
        rw [ratM_rcomb, updCombine_eq_gsInit (ratM b) (q : ℚ) hji hin hFR]
      rw [hstep]
      refine ih (applyMut b (.combine i j q)) ?_ hrest
      show FullRank (ratM (rcomb b i j q))
      rw [ratM_rcomb]
      exact fullRank_rcomb (q : ℚ) hji hFR
    | swap i =>
      have hi : i + 1 < n := hm
      have hstep : applyStateMut (gsInit (ratM b)) (.swap i)
          = gsInit (ratM (applyMut b (.swap i))) := by
        show updSwap (gsInit (ratM b)) i = gsInit (ratM (rswap b i (i + 1)))
        rw [ratM_rswap, updSwap_eq_gsInit (ratM b) hi hFR]
      rw [hstep]
      refine ih (applyMut b (.swap i)) ?_ hrest
      show FullRank (ratM (rswap b i (i + 1)))
      rw [ratM_rswap]
      exact fullRank_rswap hi hFR

/-- C4 witness: the incremental/from-scratch equivalence instantiated on the
concrete full-rank basis `[[2,1],[1,3]]` with a combine, a swap, and another
combine. -/
theorem gramSchmidt_incremental_eq_witness :
    applyStateMuts (gsInit (ratM !![(2 : ℤ), 1; 1, 3]))
        [.combine 1 0 1, .swap 0, .combine 1 0 2]
      = gsInit (ratM (applyMuts !![(2 : ℤ), 1; 1, 3]
          [.combine 1 0 1, .swap 0, .combine 1 0 2])) :=
  gramSchmidt_incremental_eq [.combine 1 0 1, .swap 0, .combine 1 0 2]
    !![(2 : ℤ), 1; 1, 3] (by unfold FullRank; decide) (by decide)

end LLLFin
